import Mathlib

/-!
# Bitboard checkers: a shallow embedding of `src/main.c`

The three occupancy masks are `uint64_t` values, modelled as natural numbers
below `2 ^ 64`.  C `int` values are modelled as `Int`; every `int` expression
of the embedded functions stays far inside the 32-bit range (rows, columns and
indices derived from squares), so no wrap-around has to be modelled.  C integer
division and remainder truncate towards zero: `Int.tdiv` and `Int.tmod`.

A left shift `(uint64_t)1 << i` is undefined in C unless `0 ≤ i < 64`; the
embedding makes that explicit: every function that builds a mask returns an
`Option`, and `none` stands for an undefined shift.
-/

namespace Bitboard

/-! ## Machine-level helpers -/

/-- The macro `BOARD_SIZE`. -/
def BOARD_SIZE : Int := 64

/-- The expression `(uint64_t)1 << i`: defined only for shift counts `0 ≤ i < 64`. -/
def shl1 (i : Int) : Option Nat :=
  if 0 ≤ i ∧ i < 64 then some ((1 <<< i.toNat) % 2 ^ 64) else none

/-- The 64-bit complement `~m` of a `uint64_t`. -/
def not64 (m : Nat) : Nat := 2 ^ 64 - 1 - m % 2 ^ 64

/-- The C library function `abs` on `int` (no argument here is `INT_MIN`). -/
def abs (x : Int) : Int := if x < 0 then -x else x

/-! ## The functions of `main.c` -/

/-- `IsLegalMove` (main.c 68-131).  The result is the pair of the returned `int`
and the value of `*capture` on return; the last argument is `*capture` on entry. -/
def IsLegalMove (player_pieces opponent_pieces kings : Nat) (start end_ player : Int)
    (capture : Int) : Option (Int × Int) :=
  if start < 0 ∨ start ≥ BOARD_SIZE ∨ end_ < 0 ∨ end_ ≥ BOARD_SIZE then some (0, capture)
  else
    let occupied := player_pieces ||| opponent_pieces
    (shl1 start).bind fun start_mask =>
    (shl1 end_).bind fun end_mask =>
    if player_pieces &&& start_mask = 0 then some (0, capture)
    else if occupied &&& end_mask ≠ 0 then some (0, capture)
    else
      let start_row := start.tdiv 8
      let start_col := start.tmod 8
      let end_row := end_.tdiv 8
      let end_col := end_.tmod 8
      let row_diff := end_row - start_row
      let col_diff := end_col - start_col
      if abs row_diff ≠ abs col_diff then some (0, capture)
      else
        let is_king : Bool := kings &&& start_mask ≠ 0
        let forward : Int := if player = 1 then 1 else -1
        if abs row_diff = 1 then
          if is_king ∨ row_diff = forward then some (1, 0) else some (0, 0)
        else if abs row_diff = 2 then
          let mid_row := (start_row + end_row).tdiv 2
          let mid_col := (start_col + end_col).tdiv 2
          let mid_index := mid_row * 8 + mid_col
          (shl1 mid_index).bind fun mid_mask =>
          if opponent_pieces &&& mid_mask = 0 then some (0, capture)
          else if is_king ∨ row_diff = 2 * forward then some (2, 1) else some (0, 1)
        else some (0, capture)

/-- `MovePiece` (main.c 134-141): the new value of `*pieces`. -/
def MovePiece (pieces : Nat) (start end_ : Int) : Option Nat :=
  (shl1 start).bind fun start_mask =>
  (shl1 end_).bind fun end_mask =>
  some ((pieces &&& not64 start_mask) ||| end_mask)

/-- `CapturePiece` (main.c 144-150): the new values of `*opponent_pieces` and `*kings`. -/
def CapturePiece (opponent_pieces kings : Nat) (position : Int) : Option (Nat × Nat) :=
  (shl1 position).bind fun mask =>
  some (opponent_pieces &&& not64 mask, kings &&& not64 mask)

/-- `CheckPromotion` (main.c 153-156): the C truth value as a `Bool`. -/
def CheckPromotion (position player : Int) : Bool :=
  let row := position.tdiv 8
  (player == 1 && row == 7) || (player == 2 && row == 0)

/-- The table `directions` of `HasAvailableCapture`. -/
def directions : List (Int × Int) := [(1, 1), (1, -1), (-1, 1), (-1, -1)]

/-- The body of the `for` loop of `HasAvailableCapture` for one direction
(main.c 167-191): `some true` when the loop returns 1 at this direction,
`some false` when it goes on to the next one. -/
def captureInDirection (player_pieces opponent_pieces : Nat) (is_king : Bool) (forward : Int)
    (position : Int) (d : Int × Int) : Option Bool :=
  let dr := d.1
  let dc := d.2
  if !is_king ∧ dr ≠ forward then some false
  else
    let mid_row := position.tdiv 8 + dr
    let mid_col := position.tmod 8 + dc
    let end_row := mid_row + dr
    let end_col := mid_col + dc
    if end_row < 0 ∨ end_row ≥ 8 ∨ end_col < 0 ∨ end_col ≥ 8 then some false
    else
      let mid_index := mid_row * 8 + mid_col
      let end_index := end_row * 8 + end_col
      (shl1 mid_index).bind fun mid_mask =>
      (shl1 end_index).bind fun end_mask =>
      some (decide (opponent_pieces &&& mid_mask ≠ 0 ∧
        ¬ ((player_pieces ||| opponent_pieces) &&& end_mask ≠ 0)))

/-- The `for` loop of `HasAvailableCapture` over the remaining directions. -/
def captureLoop (player_pieces opponent_pieces : Nat) (is_king : Bool) (forward : Int)
    (position : Int) : List (Int × Int) → Option Int
  | [] => some 0
  | d :: ds =>
    (captureInDirection player_pieces opponent_pieces is_king forward position d).bind fun hit =>
    if hit then some 1
    else captureLoop player_pieces opponent_pieces is_king forward position ds

/-- `HasAvailableCapture` (main.c 159-195). -/
def HasAvailableCapture (player_pieces opponent_pieces kings : Nat) (position player : Int) :
    Option Int :=
  (shl1 position).bind fun start_mask =>
  let is_king : Bool := kings &&& start_mask ≠ 0
  let forward : Int := if player = 1 then 1 else -1
  captureLoop player_pieces opponent_pieces is_king forward position directions

/-! ## The game state and the apply steps of `utility` -/

/-- The three local masks of `utility` (main.c 198). -/
structure Board where
  black_pieces : Nat
  white_pieces : Nat
  kings : Nat
deriving DecidableEq, Repr

/-- The mask `*player_pieces` of `utility` (main.c 243). -/
def Board.playerPieces (b : Board) (player : Int) : Nat :=
  if player = 1 then b.black_pieces else b.white_pieces

/-- The mask `*opponent_pieces` of `utility` (main.c 244). -/
def Board.opponentPieces (b : Board) (player : Int) : Nat :=
  if player = 1 then b.white_pieces else b.black_pieces

/-- Writing through the pointers `player_pieces`, `opponent_pieces` (main.c 243-244)
and to `kings`. -/
def Board.store (player : Int) (own opp kings : Nat) : Board :=
  if player = 1 then ⟨own, opp, kings⟩ else ⟨opp, own, kings⟩

/-- The apply steps of `utility` (main.c 253-277) for a move that `IsLegalMove`
accepted, with `capture` the flag it left behind. -/
def applyMove (b : Board) (player start end_ capture : Int) : Option Board :=
  (MovePiece (b.playerPieces player) start end_).bind fun own =>
  (shl1 start).bind fun start_mask =>
  (shl1 end_).bind fun end_mask =>
  let kings1 := if b.kings &&& start_mask ≠ 0 then (b.kings &&& not64 start_mask) ||| end_mask
    else b.kings
  let captured : Option (Nat × Nat) :=
    if capture ≠ 0 then
      let mid_row := (start.tdiv 8 + end_.tdiv 8).tdiv 2
      let mid_col := (start.tmod 8 + end_.tmod 8).tdiv 2
      let mid_index := mid_row * 8 + mid_col
      CapturePiece (b.opponentPieces player) kings1 mid_index
    else some (b.opponentPieces player, kings1)
  captured.bind fun oc =>
  let kings3 := if CheckPromotion end_ player then oc.2 ||| end_mask else oc.2
  some (Board.store player own oc.1 kings3)

/-- The inner `for` loop of `InitializeBoard` (main.c 28-31, 36-39) from column
`col` on: `pieces` is the mask being filled. -/
def placeCols (row col : Int) (pieces : Nat) : Option Nat :=
  if col < 8 then
    (shl1 (row * 8 + col)).bind fun m => placeCols row (col + 2) (pieces ||| m)
  else some pieces
termination_by (8 - col).toNat
decreasing_by omega

/-- The outer `for` loop of `InitializeBoard` (main.c 27-32, 35-40) from row `row`
up to and including row `last`. -/
def placeRows (row last : Int) (pieces : Nat) : Option Nat :=
  if row ≤ last then
    (placeCols row ((row + 1).tmod 2) pieces).bind fun p => placeRows (row + 1) last p
  else some pieces
termination_by (last + 1 - row).toNat
decreasing_by omega

/-- `InitializeBoard` (main.c 21-41): the masks it stores, whatever they held before. -/
def InitializeBoard : Option Board :=
  (placeRows 0 2 0).bind fun black =>
  (placeRows 5 7 0).bind fun white =>
  some ⟨black, white, 0⟩

/-! ## Coordinates, the win check and one turn of `utility` -/

/-- The C library function `toupper` in the "C" locale, on character codes:
97 to 122 are the letters a to z. -/
def toupper (c : Int) : Int := if 97 ≤ c ∧ c ≤ 122 then c - 32 else c

/-- `ConvertToIndex` (main.c 8-18) on the code of the column character: 65 is the
letter A and 72 the letter H. -/
def ConvertToIndex (column row : Int) : Int :=
  let column := toupper column
  if column < 65 ∨ column > 72 ∨ row < 1 ∨ row > 8 then -1
  else
    let col := column - 65
    let r := row - 1
    r * 8 + col

/-- The column character and row number that `utility` prints for a square
(main.c 286): the code of `'A' + (end % 8)` and `(end / 8) + 1`. -/
def squareName (end_ : Int) : Int × Int := (65 + end_.tmod 8, end_.tdiv 8 + 1)

/-- The outcomes of the win check of `utility` (main.c 207-213). -/
inductive Status
  | whiteWins
  | blackWins
  | inProgress
deriving DecidableEq, Repr

/-- The win check at the top of the game loop (main.c 207-213). -/
def winCheck (black_pieces white_pieces : Nat) : Status :=
  if black_pieces = 0 then Status.whiteWins
  else if white_pieces = 0 then Status.blackWins
  else Status.inProgress

/-- One call of `scanf(" %c%d", ...)`: `none` when it does not return 2, otherwise
the character code and the number it stored. -/
abbrev Scan := Option (Int × Int)

/-- What a turn does, in order: `request p` is the prompt for another jump
(main.c 284-288) printed for the square `p`, `move s e` is a run of the apply
steps (main.c 254 or 310) from `s` to `e`.  The record does not feed back into
the computation. -/
inductive Event
  | request (position : Int)
  | move (start end_ : Int)
deriving DecidableEq, Repr

/-- How far a turn got on the inputs it was given: `done` when the loop
`while (!valid_move)` was left, with the inputs not yet read; `waiting` when a
`scanf` found the inputs used up. -/
inductive Turn
  | done (b : Board) (log : List Event) (rest : List Scan)
  | waiting (b : Board) (log : List Event)
deriving DecidableEq, Repr

/-- How one pass through the body of the multi-jump loop ends (main.c 284-332):
`left` by a `break`, `again` by a `continue` or at the end of the body, which
leads back to the loop condition.  Each carries the three masks as they are at
that point and what the pass did; `again` also carries the variable `end`. -/
inductive Pass
  | left (b : Board) (events : List Event)
  | again (b : Board) (end_ : Int) (events : List Event)
deriving DecidableEq, Repr

/-- One pass through the body of the multi-jump loop of `utility` (main.c
284-332), entered with the variable `end` equal to `end_`, on one result of
`scanf`.  Lines 310-331 repeat the apply steps 254-277 with the capture step
unconditional, which is `applyMove` with the flag 1. -/
def chainPass (player : Int) (b : Board) (end_ : Int) (input : Scan) : Option Pass :=
  let start := end_
  match input with
  | none => some (Pass.left b [Event.request end_])
  | some (end_col, end_row) =>
    let end2 := ConvertToIndex end_col end_row
    if end2 = -1 then some (Pass.again b end2 [Event.request end_])
    else
      (IsLegalMove (b.playerPieces player) (b.opponentPieces player) b.kings start end2
        player 0).bind fun rc =>
      if rc.1 ≠ 2 then some (Pass.again b end2 [Event.request end_])
      else
        (applyMove b player start end2 1).bind fun b' =>
        if CheckPromotion end2 player then
          some (Pass.left b' [Event.request end_, Event.move start end2])
        else some (Pass.again b' end2 [Event.request end_, Event.move start end2])

/-- The multi-jump loop of `utility` (main.c 283-333), entered with the variable
`end` equal to `end_`: the loop condition, then one pass through the body. -/
def chainLoop (player : Int) (b : Board) (end_ : Int) (log : List Event) :
    List Scan → Option Turn
  | [] =>
    (HasAvailableCapture (b.playerPieces player) (b.opponentPieces player) b.kings end_
      player).bind fun h =>
    if h = 0 then some (Turn.done b log [])
    else some (Turn.waiting b (log ++ [Event.request end_]))
  | input :: rest =>
    (HasAvailableCapture (b.playerPieces player) (b.opponentPieces player) b.kings end_
      player).bind fun h =>
    if h = 0 then some (Turn.done b log (input :: rest))
    else
      (chainPass player b end_ input).bind fun p =>
      match p with
      | Pass.left b' events => some (Turn.done b' (log ++ events) rest)
      | Pass.again b' end2 events => chainLoop player b' end2 (log ++ events) rest

/-- One turn of `utility`: the loop `while (!valid_move)` (main.c 217-335) for
`player` on the board `b`, reading the results of its `scanf` calls from the
list. -/
def playTurn (player : Int) (b : Board) : List Scan → Option Turn
  | [] => some (Turn.waiting b [])
  | none :: rest => playTurn player b rest
  | some _ :: [] => some (Turn.waiting b [])
  | some _ :: none :: rest => playTurn player b rest
  | some (start_col, start_row) :: some (end_col, end_row) :: rest =>
    let start := ConvertToIndex start_col start_row
    let end_ := ConvertToIndex end_col end_row
    if start = -1 ∨ end_ = -1 then playTurn player b rest
    else
      (IsLegalMove (b.playerPieces player) (b.opponentPieces player) b.kings start end_
        player 0).bind fun rc =>
      if rc.1 = 0 then playTurn player b rest
      else
        (applyMove b player start end_ rc.2).bind fun b' =>
        if rc.2 ≠ 0 then chainLoop player b' end_ [Event.move start end_] rest
        else some (Turn.done b' [Event.move start end_] rest)

/-- The board a turn has reached. -/
def Turn.board : Turn → Board
  | Turn.done b _ _ => b
  | Turn.waiting b _ => b

/-! ## Vocabulary of the statements -/

/-- A square index that lies on the board. -/
def onBoard (i : Int) : Prop := 0 ≤ i ∧ i < 64

instance (i : Int) : Decidable (onBoard i) := by unfold onBoard; infer_instance

/-- Bit `i` of the mask `m` is set. -/
def isSet (m : Nat) (i : Int) : Prop := m.testBit i.toNat = true

instance (m : Nat) (i : Int) : Decidable (isSet m i) := by unfold isSet; infer_instance

/-- Row of a square, `index / 8` as C computes it. -/
def rowOf (i : Int) : Int := i.tdiv 8

/-- Column of a square, `index % 8` as C computes it. -/
def colOf (i : Int) : Int := i.tmod 8

/-- Forward row direction of a player as both functions compute it. -/
def forwardOf (player : Int) : Int := if player = 1 then 1 else -1

/-- The square between `s` and `e`: average row and average column. -/
def midSquare (s e : Int) : Int :=
  (rowOf s + rowOf e).tdiv 2 * 8 + (colOf s + colOf e).tdiv 2

/-- A value of type `uint64_t`. -/
def IsU64 (m : Nat) : Prop := m < 2 ^ 64

/-! ## Definitions used by the statements and proofs -/

/-- The closed form of `IsLegalMove` for two squares of the board: the same
decisions in the same order, without the mask plumbing. -/
def classify (pp op k : Nat) (s e player c : Int) : Int × Int :=
  if ¬ isSet pp s then (0, c)
  else if isSet pp e ∨ isSet op e then (0, c)
  else if abs (rowOf e - rowOf s) ≠ abs (colOf e - colOf s) then (0, c)
  else if abs (rowOf e - rowOf s) = 1 then
    if isSet k s ∨ rowOf e - rowOf s = forwardOf player then (1, 0) else (0, 0)
  else if abs (rowOf e - rowOf s) = 2 then
    if ¬ isSet op (midSquare s e) then (0, c)
    else if isSet k s ∨ rowOf e - rowOf s = 2 * forwardOf player then (2, 1) else (0, 1)
  else (0, c)

/-- All three masks are values of `uint64_t`. -/
def Board.WellFormed (b : Board) : Prop :=
  IsU64 b.black_pieces ∧ IsU64 b.white_pieces ∧ IsU64 b.kings

/-- The invariants of the data model: `black_pieces & white_pieces == 0` and
`kings` is contained in `black_pieces | white_pieces`. -/
def Board.Inv (b : Board) : Prop :=
  b.black_pieces &&& b.white_pieces = 0 ∧
    b.kings &&& (b.black_pieces ||| b.white_pieces) = b.kings

instance (m : Nat) : Decidable (IsU64 m) := by unfold IsU64; infer_instance

instance (b : Board) : Decidable b.WellFormed := by unfold Board.WellFormed; infer_instance

instance (b : Board) : Decidable b.Inv := by unfold Board.Inv; infer_instance

/-- Boards reachable from `InitializeBoard` by applying moves that `IsLegalMove`
accepts, for either player and from any entry value of the capture flag.  Every
state of the game loop is of this kind: the first move of a turn is such a step,
and a jump of the multi-jump loop is such a step with result 2. -/
inductive Reachable : Board → Prop
  | init (b : Board) : InitializeBoard = some b → Reachable b
  | move (b b' : Board) (player s e c r c' : Int) : Reachable b →
      (player = 1 ∨ player = 2) →
      IsLegalMove (b.playerPieces player) (b.opponentPieces player) b.kings s e player c
        = some (r, c') →
      r ≠ 0 → applyMove b player s e c' = some b' → Reachable b'

/-- The condition of the capture-chain contract for one direction `(dr, dc)`, in
the words of the specification: the piece is a king or `dr` is its forward
direction, the landing square two steps away is on the board, the adjacent
square holds an opponent piece and the landing square is empty. -/
def specJump (pp op k : Nat) (position player dr dc : Int) : Prop :=
  (isSet k position ∨ dr = forwardOf player) ∧
  (0 ≤ rowOf position + 2 * dr ∧ rowOf position + 2 * dr ≤ 7 ∧
    0 ≤ colOf position + 2 * dc ∧ colOf position + 2 * dc ≤ 7) ∧
  isSet op ((rowOf position + dr) * 8 + (colOf position + dc)) ∧
  ¬ isSet pp ((rowOf position + 2 * dr) * 8 + (colOf position + 2 * dc)) ∧
  ¬ isSet op ((rowOf position + 2 * dr) * 8 + (colOf position + 2 * dc))

instance (pp op k : Nat) (position player dr dc : Int) :
    Decidable (specJump pp op k position player dr dc) := by
  unfold specJump; infer_instance

/-- The geometric part of `specJump`: landing square on the board, adjacent
square held by the opponent, landing square empty. -/
def specLanding (pp op : Nat) (position dr dc : Int) : Prop :=
  (0 ≤ rowOf position + 2 * dr ∧ rowOf position + 2 * dr ≤ 7 ∧
    0 ≤ colOf position + 2 * dc ∧ colOf position + 2 * dc ≤ 7) ∧
  isSet op ((rowOf position + dr) * 8 + (colOf position + dc)) ∧
  ¬ isSet pp ((rowOf position + 2 * dr) * 8 + (colOf position + 2 * dc)) ∧
  ¬ isSet op ((rowOf position + 2 * dr) * 8 + (colOf position + 2 * dc))

instance (pp op : Nat) (position dr dc : Int) : Decidable (specLanding pp op position dr dc) := by
  unfold specLanding; infer_instance

/-- Number of pieces of a mask: how many of the squares 0..63 have their bit set. -/
def pieceCount (m : Nat) : Nat :=
  ((Finset.range 64).filter fun i => m.testBit i = true).card

/-- A dark square of the board: row plus column is odd. -/
def darkSquare (i : Nat) : Prop := (i / 8 + i % 8) % 2 = 1

instance (i : Nat) : Decidable (darkSquare i) := by unfold darkSquare; infer_instance

/-- Every square set in one of the three masks is dark. -/
def Board.OnDark (b : Board) : Prop :=
  ∀ i : Nat, (b.black_pieces.testBit i = true ∨ b.white_pieces.testBit i = true ∨
    b.kings.testBit i = true) → darkSquare i

/-! ## Bit-level lemmas -/

theorem shl1_onBoard {i : Int} (h0 : 0 ≤ i) (h1 : i < 64) : shl1 i = some (2 ^ i.toNat) := by
  have hlt : i.toNat < 64 := by omega
  have hp : (2 : Nat) ^ i.toNat < 2 ^ 64 := Nat.pow_lt_pow_right (by decide) hlt
  simp only [shl1, h0, h1, and_self, if_true, Nat.one_shiftLeft, Nat.mod_eq_of_lt hp]

theorem and_two_pow_eq_zero (m n : Nat) : m &&& 2 ^ n = 0 ↔ m.testBit n = false := by
  constructor
  · intro h
    have := congrArg (fun x => x.testBit n) h
    simpa [Nat.testBit_two_pow_self] using this
  · intro h
    apply Nat.eq_of_testBit_eq
    intro i
    by_cases hi : n = i
    · subst hi; simp [h]
    · simp [Nat.testBit_two_pow_of_ne hi]

theorem and_two_pow_ne_zero (m n : Nat) : m &&& 2 ^ n ≠ 0 ↔ m.testBit n = true := by
  rw [Ne, and_two_pow_eq_zero]; simp

theorem testBit_not64 (m i : Nat) :
    (not64 m).testBit i = (decide (i < 64) && !m.testBit i) := by
  have hlt : m % 2 ^ 64 < 2 ^ 64 := Nat.mod_lt _ (by decide)
  have h : not64 m = 2 ^ 64 - (m % 2 ^ 64 + 1) := by unfold not64; omega
  rw [h, Nat.testBit_two_pow_sub_succ hlt, Nat.testBit_mod_two_pow]
  by_cases hi : i < 64 <;> simp [hi]

theorem testBit_clear (m n i : Nat) :
    (m &&& not64 (2 ^ n)).testBit i = (m.testBit i && decide (i < 64) && decide (i ≠ n)) := by
  rw [Nat.testBit_and, testBit_not64, Nat.testBit_two_pow]
  by_cases h : n = i
  · subst h; simp
  · have h2 : i ≠ n := fun e => h e.symm
    simp [h, h2]

theorem testBit_u64 {m : Nat} (h : IsU64 m) {i : Nat} (hi : 64 ≤ i) : m.testBit i = false := by
  apply Nat.testBit_lt_two_pow
  exact Nat.lt_of_lt_of_le h (Nat.pow_le_pow_right (by decide) hi)

/-! ## `IsLegalMove` in closed form -/

/-- On the board C division and remainder by 8 are the floor versions. -/
theorem rowOf_eq {i : Int} (h : 0 ≤ i) : i.tdiv 8 = i / 8 := Int.tdiv_eq_ediv h (by decide)

theorem colOf_eq {i : Int} (h : 0 ≤ i) : i.tmod 8 = i % 8 := Int.tmod_eq_emod h (by decide)

theorem half_eq {i : Int} (h : 0 ≤ i) : i.tdiv 2 = i / 2 := Int.tdiv_eq_ediv h (by decide)

/-- The midpoint of a two-step diagonal jump lies on the board, strictly between
its ends. -/
theorem midSquare_facts {s e : Int} (hs : onBoard s) (he : onBoard e)
    (hr : abs (rowOf e - rowOf s) = 2) (hc : abs (colOf e - colOf s) = 2) :
    onBoard (midSquare s e) ∧ midSquare s e ≠ s ∧ midSquare s e ≠ e ∧
      2 * rowOf (midSquare s e) = rowOf s + rowOf e ∧
      2 * colOf (midSquare s e) = colOf s + colOf e := by
  obtain ⟨hs0, hs1⟩ := hs
  obtain ⟨he0, he1⟩ := he
  unfold midSquare rowOf colOf at *
  unfold abs at hr hc
  rw [rowOf_eq hs0, rowOf_eq he0] at hr ⊢
  rw [colOf_eq hs0, colOf_eq he0] at hc ⊢
  rw [half_eq (by omega), half_eq (by omega)]
  have hm : 0 ≤ (s / 8 + e / 8) / 2 * 8 + (s % 8 + e % 8) / 2 := by omega
  rw [rowOf_eq hm, colOf_eq hm]
  unfold onBoard
  split_ifs at hr hc <;> omega

theorem isLegalMove_offBoard (pp op k : Nat) (s e player c : Int)
    (h : ¬ (onBoard s ∧ onBoard e)) : IsLegalMove pp op k s e player c = some (0, c) := by
  unfold IsLegalMove BOARD_SIZE
  unfold onBoard at h
  rw [if_pos (by omega)]

theorem or_and_two_pow_ne_zero (a b n : Nat) :
    (a ||| b) &&& 2 ^ n ≠ 0 ↔ (a.testBit n = true ∨ b.testBit n = true) := by
  rw [and_two_pow_ne_zero, Nat.testBit_or, Bool.or_eq_true]

theorem isLegalMove_onBoard (pp op k : Nat) (s e player c : Int)
    (hs : onBoard s) (he : onBoard e) :
    IsLegalMove pp op k s e player c = some (classify pp op k s e player c) := by
  have hs' := shl1_onBoard hs.1 hs.2
  have he' := shl1_onBoard he.1 he.2
  unfold IsLegalMove classify BOARD_SIZE
  rw [if_neg (by unfold onBoard at hs he; omega)]
  simp only [hs', he', Option.some_bind, isSet, rowOf, colOf, forwardOf, decide_eq_true_eq,
    and_two_pow_ne_zero k]
  by_cases h1 : pp.testBit s.toNat = true
  · rw [if_neg ((and_two_pow_ne_zero _ _).mpr h1), if_neg (not_not.mpr h1)]
    by_cases h2 : pp.testBit e.toNat = true ∨ op.testBit e.toNat = true
    · rw [if_pos ((or_and_two_pow_ne_zero _ _ _).mpr h2), if_pos h2]
    · rw [if_neg (fun h => h2 ((or_and_two_pow_ne_zero _ _ _).mp h)), if_neg h2]
      by_cases h3 : abs (e.tdiv 8 - s.tdiv 8) = abs (e.tmod 8 - s.tmod 8)
      · rw [if_neg (not_not.mpr h3), if_neg (not_not.mpr h3)]
        by_cases h4 : abs (e.tdiv 8 - s.tdiv 8) = 1
        · rw [if_pos h4, if_pos h4]
          split_ifs <;> rfl
        · rw [if_neg h4, if_neg h4]
          by_cases h5 : abs (e.tdiv 8 - s.tdiv 8) = 2
          · rw [if_pos h5, if_pos h5]
            have hm := (midSquare_facts hs he h5 (by unfold colOf; rw [← h3]; exact h5)).1
            unfold midSquare rowOf colOf at hm ⊢
            rw [shl1_onBoard hm.1 hm.2, Option.some_bind]
            by_cases h6 : op.testBit
                ((s.tdiv 8 + e.tdiv 8).tdiv 2 * 8 + (s.tmod 8 + e.tmod 8).tdiv 2).toNat = true
            · rw [if_neg ((and_two_pow_ne_zero _ _).mpr h6), if_neg (not_not.mpr h6)]
              split_ifs <;> rfl
            · rw [if_pos (not_not.mp (fun h => h6 ((and_two_pow_ne_zero _ _).mp h))), if_pos h6]
          · rw [if_neg h5, if_neg h5]
      · rw [if_pos h3, if_pos h3]
  · rw [if_pos (not_not.mp (fun h => h1 ((and_two_pow_ne_zero _ _).mp h))), if_pos h1]

theorem isLegalMove_cases (pp op k : Nat) (s e player c : Int) :
    IsLegalMove pp op k s e player c =
      some (if onBoard s ∧ onBoard e then classify pp op k s e player c else (0, c)) := by
  by_cases h : onBoard s ∧ onBoard e
  · rw [if_pos h, isLegalMove_onBoard pp op k s e player c h.1 h.2]
  · rw [if_neg h, isLegalMove_offBoard pp op k s e player c h]

theorem isLegalMove_two_iff (pp op k : Nat) (s e player c c' : Int) :
    IsLegalMove pp op k s e player c = some (2, c') ↔
      (onBoard s ∧ onBoard e ∧ isSet pp s ∧ ¬ isSet pp e ∧ ¬ isSet op e ∧
        abs (rowOf e - rowOf s) = 2 ∧ abs (colOf e - colOf s) = 2 ∧
        isSet op (midSquare s e) ∧
        (isSet k s ∨ rowOf e - rowOf s = 2 * forwardOf player)) ∧ c' = 1 := by
  rw [isLegalMove_cases]
  unfold classify
  generalize abs (rowOf e - rowOf s) = A
  generalize abs (colOf e - colOf s) = B
  constructor
  · intro h
    split_ifs at h <;> simp only [Option.some.injEq, Prod.mk.injEq] at h <;>
      obtain ⟨hr, hc⟩ := h <;> first
      | (exfalso; omega)
      | exact ⟨⟨by tauto, by tauto, by tauto, by tauto, by tauto, by omega, by omega, by tauto,
          by tauto⟩, by omega⟩
  · rintro ⟨⟨h1, h2, h3, h4, h5, h6, h7, h8, h9⟩, rfl⟩
    rw [if_pos ⟨h1, h2⟩, if_neg (not_not.mpr h3), if_neg (by tauto), if_neg (by omega),
      if_neg (by omega), if_pos h6, if_neg (not_not.mpr h8), if_pos h9]

theorem isLegalMove_one_iff (pp op k : Nat) (s e player c c' : Int) :
    IsLegalMove pp op k s e player c = some (1, c') ↔
      (onBoard s ∧ onBoard e ∧ isSet pp s ∧ ¬ isSet pp e ∧ ¬ isSet op e ∧
        abs (rowOf e - rowOf s) = 1 ∧ abs (colOf e - colOf s) = 1 ∧
        (isSet k s ∨ rowOf e - rowOf s = forwardOf player)) ∧ c' = 0 := by
  rw [isLegalMove_cases]
  unfold classify
  generalize abs (rowOf e - rowOf s) = A
  generalize abs (colOf e - colOf s) = B
  constructor
  · intro h
    split_ifs at h <;> simp only [Option.some.injEq, Prod.mk.injEq] at h <;>
      obtain ⟨hr, hc⟩ := h <;> first
      | (exfalso; omega)
      | exact ⟨⟨by tauto, by tauto, by tauto, by tauto, by tauto, by omega, by omega, by tauto⟩,
          by omega⟩
  · rintro ⟨⟨h1, h2, h3, h4, h5, h6, h7, h8⟩, rfl⟩
    rw [if_pos ⟨h1, h2⟩, if_neg (not_not.mpr h3), if_neg (by tauto), if_neg (by omega),
      if_pos h6, if_pos h8]

theorem isLegalMove_result (pp op k : Nat) (s e player c : Int) :
    ∃ r c', IsLegalMove pp op k s e player c = some (r, c') ∧ (r = 0 ∨ r = 1 ∨ r = 2) := by
  rw [isLegalMove_cases]
  unfold classify
  split_ifs <;> exact ⟨_, _, rfl, by decide⟩

/-! ## The apply steps in closed form -/

theorem store_playerPieces (player : Int) (own opp k : Nat) :
    (Board.store player own opp k).playerPieces player = own := by
  unfold Board.store Board.playerPieces
  split_ifs <;> rfl

theorem store_opponentPieces (player : Int) (own opp k : Nat) :
    (Board.store player own opp k).opponentPieces player = opp := by
  unfold Board.store Board.opponentPieces
  split_ifs <;> rfl

theorem store_kings (player : Int) (own opp k : Nat) :
    (Board.store player own opp k).kings = k := by
  unfold Board.store
  split_ifs <;> rfl

theorem testBit_set (n i : Nat) : (2 ^ n).testBit i = decide (i = n) := by
  rw [Nat.testBit_two_pow]
  by_cases h : n = i
  · subst h; simp
  · have h2 : i ≠ n := fun e => h e.symm
    simp [h, h2]

/-- The king-flag transfer of the apply steps (main.c 260-263), bit by bit. -/
theorem kings_transfer_bits (k s e i : Nat) :
    (if ¬ k &&& 2 ^ s = 0 then (k &&& not64 (2 ^ s)) ||| 2 ^ e else k).testBit i =
      (if k.testBit s = true then k.testBit i && decide (i < 64) && decide (i ≠ s)
        || decide (i = e) else k.testBit i) := by
  by_cases hk : k.testBit s = true
  · rw [if_pos ((and_two_pow_ne_zero _ _).mpr hk), if_pos hk, Nat.testBit_or, testBit_clear,
      testBit_set]
  · rw [if_neg (fun h => hk ((and_two_pow_ne_zero _ _).mp h)), if_neg hk]

/-- The apply steps never shift out of range on an accepted move, and the
masks they leave behind, bit by bit. -/
theorem applyMove_bits (b : Board) (player s e cap : Int) (hs : onBoard s) (he : onBoard e)
    (hm : cap ≠ 0 → onBoard (midSquare s e)) :
    ∃ b', applyMove b player s e cap = some b' ∧
      (∀ i, (b'.playerPieces player).testBit i =
        ((b.playerPieces player).testBit i && decide (i < 64) && decide (i ≠ s.toNat)
          || decide (i = e.toNat))) ∧
      (∀ i, (b'.opponentPieces player).testBit i =
        ((b.opponentPieces player).testBit i &&
          (decide (cap = 0) || decide (i < 64) && decide (i ≠ (midSquare s e).toNat)))) ∧
      (∀ i, b'.kings.testBit i =
        ((if b.kings.testBit s.toNat = true
            then b.kings.testBit i && decide (i < 64) && decide (i ≠ s.toNat)
              || decide (i = e.toNat)
            else b.kings.testBit i) &&
          (decide (cap = 0) || decide (i < 64) && decide (i ≠ (midSquare s e).toNat))
          || CheckPromotion e player && decide (i = e.toNat))) := by
  have hs' := shl1_onBoard hs.1 hs.2
  have he' := shl1_onBoard he.1 he.2
  unfold applyMove MovePiece CapturePiece
  simp only [hs', he', Option.some_bind]
  by_cases hc : cap = 0
  · subst hc
    simp only [ne_eq, not_true_eq_false, if_false, Option.some_bind]
    refine ⟨_, rfl, ?_, ?_, ?_⟩
    · intro i
      rw [store_playerPieces, Nat.testBit_or, testBit_clear, testBit_set]
    · intro i
      rw [store_opponentPieces]
      simp
    · intro i
      rw [store_kings]
      by_cases hp : CheckPromotion e player = true
      · rw [if_pos hp, Nat.testBit_or, testBit_set, kings_transfer_bits, hp]
        simp
      · rw [if_neg hp, kings_transfer_bits]
        simp [hp]
  · have hm' := hm hc
    unfold midSquare rowOf colOf at hm' ⊢
    have hmid := shl1_onBoard hm'.1 hm'.2
    simp only [ne_eq, hc, not_false_eq_true, if_true, hmid, Option.some_bind]
    refine ⟨_, rfl, ?_, ?_, ?_⟩
    · intro i
      rw [store_playerPieces, Nat.testBit_or, testBit_clear, testBit_set]
    · intro i
      rw [store_opponentPieces, testBit_clear]
      simp [Bool.and_assoc]
    · intro i
      rw [store_kings]
      by_cases hp : CheckPromotion e player = true
      · rw [if_pos hp, Nat.testBit_or, testBit_set, Nat.testBit_and, testBit_not64, testBit_set,
          kings_transfer_bits, hp]
        simp
      · rw [if_neg hp, Nat.testBit_and, testBit_not64, testBit_set, kings_transfer_bits]
        simp [hp]

/-! ## Board invariants -/

theorem and_eq_zero_bits (a b : Nat) :
    a &&& b = 0 ↔ ∀ i, ¬ (a.testBit i = true ∧ b.testBit i = true) := by
  constructor
  · intro h i
    have := congrArg (fun x => x.testBit i) h
    simpa using this
  · intro h
    apply Nat.eq_of_testBit_eq
    intro i
    have := h i
    simp only [Nat.testBit_and, Nat.zero_testBit]
    cases ha : a.testBit i <;> cases hb : b.testBit i <;> simp_all

theorem and_eq_left_bits (k u : Nat) :
    k &&& u = k ↔ ∀ i, k.testBit i = true → u.testBit i = true := by
  constructor
  · intro h i hi
    have := congrArg (fun x => x.testBit i) h
    simp only [Nat.testBit_and] at this
    rw [hi] at this
    simpa using this
  · intro h
    apply Nat.eq_of_testBit_eq
    intro i
    have := h i
    simp only [Nat.testBit_and]
    cases ha : k.testBit i <;> cases hb : u.testBit i <;> simp_all

theorem isU64_bits (m : Nat) : IsU64 m ↔ ∀ i, 64 ≤ i → m.testBit i = false := by
  constructor
  · intro h i hi
    exact testBit_u64 h hi
  · intro h
    exact Nat.lt_pow_two_of_testBit m h

/-- The invariants seen from the side of `player`. -/
theorem inv_bits (b : Board) (player : Int) :
    b.Inv ↔
      (∀ i, ¬ ((b.playerPieces player).testBit i = true ∧
        (b.opponentPieces player).testBit i = true)) ∧
      (∀ i, b.kings.testBit i = true →
        (b.playerPieces player).testBit i = true ∨
          (b.opponentPieces player).testBit i = true) := by
  unfold Board.Inv Board.playerPieces Board.opponentPieces
  rw [and_eq_zero_bits, and_eq_left_bits]
  simp only [Nat.testBit_or, Bool.or_eq_true]
  by_cases hp : player = 1
  · simp only [hp, if_true]
  · simp only [hp, if_false]
    constructor
    · rintro ⟨h1, h2⟩
      exact ⟨fun i hi => h1 i ⟨hi.2, hi.1⟩, fun i hi => (h2 i hi).symm⟩
    · rintro ⟨h1, h2⟩
      exact ⟨fun i hi => h1 i ⟨hi.2, hi.1⟩, fun i hi => (h2 i hi).symm⟩

/-- Well-formedness seen from the side of `player`. -/
theorem wellFormed_bits (b : Board) (player : Int) :
    b.WellFormed ↔
      (∀ i, 64 ≤ i → (b.playerPieces player).testBit i = false) ∧
      (∀ i, 64 ≤ i → (b.opponentPieces player).testBit i = false) ∧
      (∀ i, 64 ≤ i → b.kings.testBit i = false) := by
  unfold Board.WellFormed Board.playerPieces Board.opponentPieces
  rw [isU64_bits, isU64_bits, isU64_bits]
  by_cases hp : player = 1
  · simp only [hp, if_true]
  · simp only [hp, if_false]
    tauto

/-- What an accepted move tells about its squares. -/
theorem accepted_facts (pp op k : Nat) (s e player c r c' : Int)
    (h : IsLegalMove pp op k s e player c = some (r, c')) (hr : r ≠ 0) :
    onBoard s ∧ onBoard e ∧ isSet pp s ∧ ¬ isSet pp e ∧ ¬ isSet op e ∧
      ((r = 1 ∧ c' = 0) ∨
        (r = 2 ∧ c' = 1 ∧ onBoard (midSquare s e) ∧ isSet op (midSquare s e))) := by
  obtain ⟨r0, c0, h0, hr0⟩ := isLegalMove_result pp op k s e player c
  rw [h] at h0
  simp only [Option.some.injEq, Prod.mk.injEq] at h0
  obtain ⟨rfl, rfl⟩ := h0
  rcases hr0 with h0 | h1 | h2
  · exact absurd h0 hr
  · subst h1
    obtain ⟨⟨a1, a2, a3, a4, a5, -⟩, a6⟩ := (isLegalMove_one_iff pp op k s e player c c').mp h
    exact ⟨a1, a2, a3, a4, a5, Or.inl ⟨rfl, a6⟩⟩
  · subst h2
    obtain ⟨⟨a1, a2, a3, a4, a5, a6, a7, a8, -⟩, a9⟩ :=
      (isLegalMove_two_iff pp op k s e player c c').mp h
    exact ⟨a1, a2, a3, a4, a5, Or.inr ⟨rfl, a9, (midSquare_facts a1 a2 a6 a7).1, a8⟩⟩

/-- An accepted move on a board that satisfies the invariants leaves a board
that satisfies them. -/
theorem applyMove_preserves (b : Board) (player s e c r c' : Int)
    (hw : b.WellFormed) (hi : b.Inv)
    (h : IsLegalMove (b.playerPieces player) (b.opponentPieces player) b.kings s e player c
      = some (r, c')) (hr : r ≠ 0) :
    ∃ b', applyMove b player s e c' = some b' ∧ b'.WellFormed ∧ b'.Inv := by
  obtain ⟨hs, he, h1, h2, h3, h4⟩ := accepted_facts _ _ _ _ _ _ _ _ _ h hr
  have hm : c' ≠ 0 → onBoard (midSquare s e) := by
    rcases h4 with ⟨-, h0⟩ | ⟨-, -, hm, -⟩
    · exact fun hc => absurd h0 hc
    · exact fun _ => hm
  obtain ⟨b', hb', hown, hopp, hk⟩ := applyMove_bits b player s e c' hs he hm
  refine ⟨b', hb', ?_, ?_⟩
  · rw [wellFormed_bits b' player]
    obtain ⟨w1, w2, w3⟩ := (wellFormed_bits b player).mp hw
    unfold onBoard at hs he
    refine ⟨fun i hi64 => ?_, fun i hi64 => ?_, fun i hi64 => ?_⟩
    · rw [hown, w1 i hi64]
      have : i ≠ e.toNat := by omega
      simp [this]
    · rw [hopp, w2 i hi64]
      simp
    · rw [hk, w3 i hi64]
      have : i ≠ e.toNat := by omega
      have : ¬ i < 64 := by omega
      split_ifs <;> simp [*]
  · rw [inv_bits b' player]
    obtain ⟨d1, d2⟩ := (inv_bits b player).mp hi
    obtain ⟨w1, w2, w3⟩ := (wellFormed_bits b player).mp hw
    unfold isSet at h1 h2 h3
    refine ⟨fun i => ?_, fun i => ?_⟩
    · rw [hown, hopp]
      have := d1 i
      by_cases hie : i = e.toNat
      · subst hie
        simp [h3]
      · simp [hie]
        tauto
    · rw [hown, hopp, hk]
      have hd := d2 i
      have hlt : b.kings.testBit i = true → i < 64 := by
        intro hki
        by_contra hge
        rw [w3 i (by omega)] at hki
        exact absurd hki (by decide)
      by_cases hie : i = e.toNat
      · simp [hie]
      · by_cases hks : b.kings.testBit s.toNat = true
        · rw [if_pos hks]
          simp only [hie, decide_False, Bool.or_false, Bool.and_false]
          simp only [Bool.and_eq_true, Bool.or_eq_true, decide_eq_true_eq]
          tauto
        · rw [if_neg hks]
          simp only [hie, decide_False, Bool.or_false, Bool.and_false]
          simp only [Bool.and_eq_true, Bool.or_eq_true, decide_eq_true_eq]
          intro hh
          have hki := hh.1
          have : i ≠ s.toNat := by
            rintro rfl
            exact hks hki
          have hi64 := hlt hki
          rcases hd hki with ho | ho
          · exact Or.inl ⟨⟨ho, hi64⟩, this⟩
          · exact Or.inr ⟨ho, hh.2⟩

/-! ## `HasAvailableCapture` in closed form -/

theorem captureInDirection_eq (pp op k : Nat) (position player dr dc : Int)
    (hp : onBoard position) (hdr : dr = 1 ∨ dr = -1) (hdc : dc = 1 ∨ dc = -1) :
    captureInDirection pp op (decide (k &&& 2 ^ position.toNat ≠ 0)) (forwardOf player)
        position (dr, dc) =
      some (decide (specJump pp op k position player dr dc)) := by
  obtain ⟨hp0, hp1⟩ := hp
  have e1 : rowOf position + dr + dr = rowOf position + 2 * dr := by omega
  have e2 : colOf position + dc + dc = colOf position + 2 * dc := by omega
  have e3 : position.tdiv 8 + dr = rowOf position + dr := rfl
  have e4 : position.tmod 8 + dc = colOf position + dc := rfl
  have hr : rowOf position = position / 8 := rowOf_eq hp0
  have hc : colOf position = position % 8 := colOf_eq hp0
  unfold captureInDirection specJump
  simp only [e3, e4, e1, e2, isSet, Bool.not_eq_true', decide_eq_false_iff_not,
    and_two_pow_ne_zero, not_not]
  by_cases hk : k.testBit position.toNat = true ∨ dr = forwardOf player
  · rw [if_neg (by tauto)]
    by_cases hb : 0 ≤ rowOf position + 2 * dr ∧ rowOf position + 2 * dr ≤ 7 ∧
        0 ≤ colOf position + 2 * dc ∧ colOf position + 2 * dc ≤ 7
    · rw [if_neg (by omega)]
      rw [shl1_onBoard (by omega) (by omega), shl1_onBoard (by omega) (by omega)]
      simp only [Option.some_bind, and_two_pow_ne_zero, and_two_pow_eq_zero, Nat.testBit_or,
        Bool.or_eq_false_iff, hk, hb, true_and, and_self, Bool.not_eq_true]
    · rw [if_pos (by omega)]
      simp [hb]
  · rw [if_pos (by tauto)]
    simp [hk]

/-- `HasAvailableCapture` on a square of the board: never an undefined shift, and
1 exactly when one of the four directions satisfies the contract. -/
theorem hasAvailableCapture_eq (pp op k : Nat) (position player : Int) (hp : onBoard position) :
    HasAvailableCapture pp op k position player =
      some (if specJump pp op k position player 1 1 ∨ specJump pp op k position player 1 (-1) ∨
          specJump pp op k position player (-1) 1 ∨ specJump pp op k position player (-1) (-1)
        then 1 else 0) := by
  unfold HasAvailableCapture
  rw [shl1_onBoard hp.1 hp.2, Option.some_bind]
  change captureLoop pp op (decide (k &&& 2 ^ position.toNat ≠ 0)) (forwardOf player) position
    directions = _
  unfold directions
  simp only [captureLoop]
  rw [captureInDirection_eq pp op k position player 1 1 hp (by decide) (by decide),
    captureInDirection_eq pp op k position player 1 (-1) hp (by decide) (by decide),
    captureInDirection_eq pp op k position player (-1) 1 hp (by decide) (by decide),
    captureInDirection_eq pp op k position player (-1) (-1) hp (by decide) (by decide)]
  simp only [Option.some_bind, decide_eq_true_eq]
  by_cases h1 : specJump pp op k position player 1 1
  · simp [h1]
  · by_cases h2 : specJump pp op k position player 1 (-1)
    · simp [h1, h2]
    · by_cases h3 : specJump pp op k position player (-1) 1
      · simp [h1, h2, h3]
      · by_cases h4 : specJump pp op k position player (-1) (-1)
        · simp [h1, h2, h3, h4]
        · simp [h1, h2, h3, h4]

/-! ## Geometry of a jump -/

theorem rowOf_nonneg {i : Int} (h : 0 ≤ i) : rowOf i = i / 8 := rowOf_eq h

theorem colOf_nonneg {i : Int} (h : 0 ≤ i) : colOf i = i % 8 := colOf_eq h

/-- The landing square of a jump from `p` in direction `(dr, dc)`, when it is on
the board. -/
theorem landing_facts {p dr dc : Int} (hp : onBoard p)
    (hb : 0 ≤ rowOf p + 2 * dr ∧ rowOf p + 2 * dr ≤ 7 ∧
      0 ≤ colOf p + 2 * dc ∧ colOf p + 2 * dc ≤ 7) :
    onBoard ((rowOf p + 2 * dr) * 8 + (colOf p + 2 * dc)) ∧
      rowOf ((rowOf p + 2 * dr) * 8 + (colOf p + 2 * dc)) = rowOf p + 2 * dr ∧
      colOf ((rowOf p + 2 * dr) * 8 + (colOf p + 2 * dc)) = colOf p + 2 * dc ∧
      midSquare p ((rowOf p + 2 * dr) * 8 + (colOf p + 2 * dc)) =
        (rowOf p + dr) * 8 + (colOf p + dc) := by
  obtain ⟨hp0, hp1⟩ := hp
  have hr : rowOf p = p / 8 := rowOf_eq hp0
  have hc : colOf p = p % 8 := colOf_eq hp0
  have he0 : 0 ≤ (rowOf p + 2 * dr) * 8 + (colOf p + 2 * dc) := by omega
  have hre : rowOf ((rowOf p + 2 * dr) * 8 + (colOf p + 2 * dc)) = rowOf p + 2 * dr := by
    rw [rowOf_nonneg he0]; omega
  have hce : colOf ((rowOf p + 2 * dr) * 8 + (colOf p + 2 * dc)) = colOf p + 2 * dc := by
    rw [colOf_nonneg he0]; omega
  refine ⟨⟨he0, by omega⟩, hre, hce, ?_⟩
  unfold midSquare
  rw [hre, hce, half_eq (by omega), half_eq (by omega)]
  omega

/-- A two-step diagonal move between squares of the board is a jump in one of
the four directions. -/
theorem jump_geometry {p e : Int} (hp : onBoard p) (he : onBoard e)
    (hr : abs (rowOf e - rowOf p) = 2) (hc : abs (colOf e - colOf p) = 2) :
    ∃ dr dc : Int, (dr = 1 ∨ dr = -1) ∧ (dc = 1 ∨ dc = -1) ∧
      rowOf e - rowOf p = 2 * dr ∧
      e = (rowOf p + 2 * dr) * 8 + (colOf p + 2 * dc) ∧
      (0 ≤ rowOf p + 2 * dr ∧ rowOf p + 2 * dr ≤ 7 ∧
        0 ≤ colOf p + 2 * dc ∧ colOf p + 2 * dc ≤ 7) := by
  obtain ⟨hp0, hp1⟩ := hp
  obtain ⟨he0, he1⟩ := he
  have hrp : rowOf p = p / 8 := rowOf_eq hp0
  have hcp : colOf p = p % 8 := colOf_eq hp0
  have hre : rowOf e = e / 8 := rowOf_eq he0
  have hce : colOf e = e % 8 := colOf_eq he0
  unfold abs at hr hc
  have hdr : rowOf e - rowOf p = 2 * 1 ∨ rowOf e - rowOf p = 2 * (-1) := by
    split_ifs at hr <;> omega
  have hdc : colOf e - colOf p = 2 * 1 ∨ colOf e - colOf p = 2 * (-1) := by
    split_ifs at hc <;> omega
  rcases hdr with h1 | h1 <;> rcases hdc with h2 | h2
  · exact ⟨1, 1, by decide, by decide, h1, by omega, by omega⟩
  · exact ⟨1, -1, by decide, by decide, h1, by omega, by omega⟩
  · exact ⟨-1, 1, by decide, by decide, h1, by omega, by omega⟩
  · exact ⟨-1, -1, by decide, by decide, h1, by omega, by omega⟩

theorem hasAvailableCapture_one_iff (pp op k : Nat) (position player : Int)
    (hp : onBoard position) :
    HasAvailableCapture pp op k position player = some 1 ↔
      ∃ dr dc : Int, (dr = 1 ∨ dr = -1) ∧ (dc = 1 ∨ dc = -1) ∧
        specJump pp op k position player dr dc := by
  rw [hasAvailableCapture_eq pp op k position player hp]
  constructor
  · intro h
    split_ifs at h with hc
    · rcases hc with h1 | h1 | h1 | h1
      · exact ⟨1, 1, by decide, by decide, h1⟩
      · exact ⟨1, -1, by decide, by decide, h1⟩
      · exact ⟨-1, 1, by decide, by decide, h1⟩
      · exact ⟨-1, -1, by decide, by decide, h1⟩
    · simp at h
  · rintro ⟨dr, dc, hdr, hdc, hj⟩
    rw [if_pos]
    rcases hdr with rfl | rfl <;> rcases hdc with rfl | rfl <;> tauto

theorem hasAvailableCapture_zero_iff (pp op k : Nat) (position player : Int)
    (hp : onBoard position) :
    HasAvailableCapture pp op k position player = some 0 ↔
      ¬ HasAvailableCapture pp op k position player = some 1 := by
  rw [hasAvailableCapture_eq pp op k position player hp]
  split_ifs <;> simp

/-- The board that `InitializeBoard` produces. -/
theorem initializeBoard_eq :
    InitializeBoard = some ⟨0x0000000000AA55AA, 0x55AA550000000000, 0⟩ := by
  simp [InitializeBoard, placeRows, placeCols, shl1, Int.tmod]

/-- The two piece masks of a board are the mover's and the opponent's. -/
theorem not_isSet_both (b : Board) (player i : Int)
    (h1 : ¬ isSet (b.playerPieces player) i) (h2 : ¬ isSet (b.opponentPieces player) i) :
    ¬ isSet b.black_pieces i ∧ ¬ isSet b.white_pieces i := by
  unfold Board.playerPieces at h1
  unfold Board.opponentPieces at h2
  split_ifs at h1 h2
  · exact ⟨h1, h2⟩
  · exact ⟨h2, h1⟩

/-- The invariants hold in every reachable board. -/
theorem reachable_inv (b : Board) (h : Reachable b) : b.WellFormed ∧ b.Inv := by
  induction h with
  | init b hb =>
    rw [initializeBoard_eq] at hb
    simp only [Option.some.injEq] at hb
    subst hb
    exact ⟨by decide, by decide⟩
  | move b b' player s e c r c' _ _ hl hr ha ih =>
    obtain ⟨b'', hb'', hw, hi⟩ := applyMove_preserves b player s e c r c' ih.1 ih.2 hl hr
    rw [ha] at hb''
    simp only [Option.some.injEq] at hb''
    subst hb''
    exact ⟨hw, hi⟩

/-- Moving one set bit to a clear position keeps the number of pieces. -/
theorem pieceCount_move (m m' s e : Nat) (hs : s < 64) (he : e < 64)
    (hms : m.testBit s = true) (hme : m.testBit e = false)
    (hb : ∀ i, m'.testBit i = (m.testBit i && decide (i ≠ s) || decide (i = e))) :
    pieceCount m' = pieceCount m := by
  unfold pieceCount
  have hse : s ≠ e := by
    rintro rfl
    rw [hms] at hme
    exact absurd hme (by decide)
  have hset : ((Finset.range 64).filter fun i => m'.testBit i = true) =
      insert e (((Finset.range 64).filter fun i => m.testBit i = true).erase s) := by
    ext i
    simp only [Finset.mem_filter, Finset.mem_range, Finset.mem_insert, Finset.mem_erase, hb,
      Bool.or_eq_true, Bool.and_eq_true, decide_eq_true_eq]
    constructor
    · rintro ⟨h64, h | h⟩
      · exact Or.inr ⟨h.2, h64, h.1⟩
      · exact Or.inl h
    · rintro (h | ⟨h1, h2, h3⟩)
      · subst h
        exact ⟨he, Or.inr rfl⟩
      · exact ⟨h2, Or.inl ⟨h3, h1⟩⟩
  have hmem : s ∈ (Finset.range 64).filter fun i => m.testBit i = true := by
    simp [hs, hms]
  have hnot : e ∉ ((Finset.range 64).filter fun i => m.testBit i = true).erase s := by
    simp [hme]
  rw [hset, Finset.card_insert_of_not_mem hnot, Finset.card_erase_of_mem hmem]
  have hpos : 0 < ((Finset.range 64).filter fun i => m.testBit i = true).card :=
    Finset.card_pos.mpr ⟨s, hmem⟩
  omega

/-- Clearing one set bit lowers the number of pieces by one. -/
theorem pieceCount_clear (m m' p : Nat) (hp : p < 64) (hmp : m.testBit p = true)
    (hb : ∀ i, m'.testBit i = (m.testBit i && decide (i ≠ p))) :
    pieceCount m' + 1 = pieceCount m := by
  unfold pieceCount
  have hset : ((Finset.range 64).filter fun i => m'.testBit i = true) =
      ((Finset.range 64).filter fun i => m.testBit i = true).erase p := by
    ext i
    simp only [Finset.mem_filter, Finset.mem_range, Finset.mem_erase, hb,
      Bool.and_eq_true, decide_eq_true_eq]
    tauto
  have hmem : p ∈ (Finset.range 64).filter fun i => m.testBit i = true := by
    simp [hp, hmp]
  rw [hset, Finset.card_erase_of_mem hmem]
  have hpos : 0 < ((Finset.range 64).filter fun i => m.testBit i = true).card :=
    Finset.card_pos.mpr ⟨p, hmem⟩
  omega

/-! ## Coordinates, parity and the multi-jump loop -/

/-- A mask of 64 bits whose set bits among 0..63 satisfy `P` has only such set bits. -/
theorem bits_of_u64 (m : Nat) (P : Nat → Prop) (hm : IsU64 m)
    (h : ∀ i, i < 64 → m.testBit i = true → P i) : ∀ i, m.testBit i = true → P i := by
  intro i hi
  by_cases h64 : i < 64
  · exact h i h64 hi
  · rw [testBit_u64 hm (by omega)] at hi
    exact absurd hi (by decide)

theorem convertToIndex_eq (c r : Int) :
    ConvertToIndex c r =
      if toupper c < 65 ∨ toupper c > 72 ∨ r < 1 ∨ r > 8 then -1
      else (r - 1) * 8 + (toupper c - 65) := rfl

theorem toupper_lower {c : Int} (h1 : 97 ≤ c) (h2 : c ≤ 122) :
    toupper c = c - 32 ∧ toupper (c - 32) = c - 32 := by
  unfold toupper
  rw [if_pos ⟨h1, h2⟩, if_neg (by omega)]
  exact ⟨rfl, rfl⟩

/-- The flag that decides the capture step is on the board's side of every
accepted move. -/
theorem accepted_mid (pp op k : Nat) (s e player c r c' : Int)
    (h : IsLegalMove pp op k s e player c = some (r, c')) (hr : r ≠ 0) :
    c' ≠ 0 → onBoard (midSquare s e) := by
  obtain ⟨-, -, -, -, -, h4⟩ := accepted_facts _ _ _ _ _ _ _ _ _ h hr
  rcases h4 with ⟨-, h0⟩ | ⟨-, -, hm, -⟩
  · exact fun hc => absurd h0 hc
  · exact fun _ => hm

/-- A diagonal move of one or two steps keeps the colour of the square. -/
theorem dark_of_diagonal {s e : Int} (hs : onBoard s) (he : onBoard e)
    (hds : darkSquare s.toNat)
    (hgeo : (abs (rowOf e - rowOf s) = 1 ∧ abs (colOf e - colOf s) = 1) ∨
      (abs (rowOf e - rowOf s) = 2 ∧ abs (colOf e - colOf s) = 2)) :
    darkSquare e.toNat := by
  obtain ⟨sn, rfl⟩ := Int.eq_ofNat_of_zero_le hs.1
  obtain ⟨en, rfl⟩ := Int.eq_ofNat_of_zero_le he.1
  have e1 : rowOf (sn : Int) = ((sn / 8 : Nat) : Int) := by
    rw [rowOf_nonneg hs.1]; omega
  have e2 : colOf (sn : Int) = ((sn % 8 : Nat) : Int) := by
    rw [colOf_nonneg hs.1]; omega
  have e3 : rowOf (en : Int) = ((en / 8 : Nat) : Int) := by
    rw [rowOf_nonneg he.1]; omega
  have e4 : colOf (en : Int) = ((en % 8 : Nat) : Int) := by
    rw [colOf_nonneg he.1]; omega
  rw [e1, e2, e3, e4] at hgeo
  simp only [Int.toNat_ofNat] at hds ⊢
  unfold darkSquare at hds ⊢
  generalize sn / 8 = rs at hgeo hds
  generalize sn % 8 = cs at hgeo hds
  generalize en / 8 = re at hgeo ⊢
  generalize en % 8 = ce at hgeo ⊢
  unfold abs at hgeo
  rcases hgeo with ⟨g1, g2⟩ | ⟨g1, g2⟩ <;> split_ifs at g1 g2 <;> omega

/-- One pass of the multi-jump loop on a parsed input, once its condition holds. -/
theorem chainLoop_parsed (player : Int) (b : Board) (end_ : Int) (log : List Event)
    (col row h : Int) (rest : List Scan)
    (hh : HasAvailableCapture (b.playerPieces player) (b.opponentPieces player) b.kings end_
      player = some h) (h0 : h ≠ 0) :
    chainLoop player b end_ log (some (col, row) :: rest) =
      if ConvertToIndex col row = -1 then
        chainLoop player b (ConvertToIndex col row) (log ++ [Event.request end_]) rest
      else
        (IsLegalMove (b.playerPieces player) (b.opponentPieces player) b.kings end_
          (ConvertToIndex col row) player 0).bind fun rc =>
        if rc.1 ≠ 2 then
          chainLoop player b (ConvertToIndex col row) (log ++ [Event.request end_]) rest
        else
          (applyMove b player end_ (ConvertToIndex col row) 1).bind fun b' =>
          if CheckPromotion (ConvertToIndex col row) player then
            some (Turn.done b' (log ++ [Event.request end_] ++
              [Event.move end_ (ConvertToIndex col row)]) rest)
          else chainLoop player b' (ConvertToIndex col row) (log ++ [Event.request end_] ++
            [Event.move end_ (ConvertToIndex col row)]) rest := by
  simp only [chainLoop, chainPass, hh, Option.some_bind, if_neg h0]
  by_cases hc : ConvertToIndex col row = -1
  · simp only [hc, if_true, Option.some_bind]
  · simp only [hc, if_false]
    cases hl : IsLegalMove (b.playerPieces player) (b.opponentPieces player) b.kings end_
      (ConvertToIndex col row) player 0 with
    | none => rfl
    | some rc =>
      simp only [Option.some_bind]
      by_cases hr : rc.1 = 2
      · simp only [hr, ne_eq, not_true_eq_false, if_false]
        cases ha : applyMove b player end_ (ConvertToIndex col row) 1 with
        | none => rfl
        | some b' =>
          simp only [Option.some_bind]
          split_ifs <;> simp only [Option.some_bind, List.append_assoc, List.singleton_append]
      · simp only [ne_eq, hr, not_false_eq_true, if_true, Option.some_bind]

/-- The multi-jump loop on an unparsable input, once its condition holds: it is
left with the board as it was. -/
theorem chainLoop_unparsed (player : Int) (b : Board) (end_ : Int) (log : List Event)
    (h : Int) (rest : List Scan)
    (hh : HasAvailableCapture (b.playerPieces player) (b.opponentPieces player) b.kings end_
      player = some h) (h0 : h ≠ 0) :
    chainLoop player b end_ log (none :: rest) =
      some (Turn.done b (log ++ [Event.request end_]) rest) := by
  simp only [chainLoop, chainPass, hh, Option.some_bind, if_neg h0]

/-- Every board the multi-jump loop reaches from a reachable board is reachable. -/
theorem chainLoop_reachable (player : Int) (hp : player = 1 ∨ player = 2) :
    ∀ (inputs : List Scan) (b : Board) (end_ : Int) (log : List Event) (t : Turn),
      Reachable b → chainLoop player b end_ log inputs = some t → Reachable t.board := by
  intro inputs
  induction inputs with
  | nil =>
    intro b end_ log t hb ht
    simp only [chainLoop] at ht
    cases hh : HasAvailableCapture (b.playerPieces player) (b.opponentPieces player) b.kings
      end_ player with
    | none => rw [hh] at ht; simp at ht
    | some h =>
      rw [hh, Option.some_bind] at ht
      split_ifs at ht <;> simp only [Option.some.injEq] at ht <;> subst ht <;> exact hb
  | cons input rest ih =>
    intro b end_ log t hb ht
    cases hh : HasAvailableCapture (b.playerPieces player) (b.opponentPieces player) b.kings
      end_ player with
    | none => simp [chainLoop, hh] at ht
    | some h =>
      by_cases h0 : h = 0
      · simp only [chainLoop, hh, Option.some_bind, h0, if_true, Option.some.injEq] at ht
        subst ht
        exact hb
      · cases input with
        | none =>
          rw [chainLoop_unparsed player b end_ log h rest hh h0] at ht
          simp only [Option.some.injEq] at ht
          subst ht
          exact hb
        | some cr =>
          obtain ⟨col, row⟩ := cr
          rw [chainLoop_parsed player b end_ log col row h rest hh h0] at ht
          by_cases hc : ConvertToIndex col row = -1
          · rw [if_pos hc] at ht
            exact ih b _ _ t hb ht
          · rw [if_neg hc] at ht
            obtain ⟨r, c', hl, -⟩ := isLegalMove_result (b.playerPieces player)
              (b.opponentPieces player) b.kings end_ (ConvertToIndex col row) player 0
            rw [hl, Option.some_bind] at ht
            by_cases hr : r = 2
            · subst hr
              have hc1 : c' = 1 := ((isLegalMove_two_iff _ _ _ _ _ _ _ _).mp hl).2
              subst hc1
              simp only [ne_eq, not_true_eq_false, if_false] at ht
              cases ha : applyMove b player end_ (ConvertToIndex col row) 1 with
              | none => rw [ha] at ht; simp at ht
              | some b' =>
                have hb' : Reachable b' :=
                  Reachable.move b b' player end_ (ConvertToIndex col row) 0 2 1 hb hp hl
                    (by decide) ha
                rw [ha, Option.some_bind] at ht
                split_ifs at ht
                · simp only [Option.some.injEq] at ht
                  subst ht
                  exact hb'
                · exact ih b' _ _ t hb' ht
            · simp only [ne_eq, hr, not_false_eq_true, if_true] at ht
              exact ih b _ _ t hb ht

/-- Every board a turn reaches from a reachable board is reachable: the game
never leaves the boards of `Reachable`. -/
theorem playTurn_reachable (player : Int) (hp : player = 1 ∨ player = 2) (b : Board)
    (hb : Reachable b) :
    ∀ (n : Nat) (inputs : List Scan) (t : Turn), inputs.length ≤ n →
      playTurn player b inputs = some t → Reachable t.board := by
  intro n
  induction n with
  | zero =>
    intro inputs t hn ht
    cases inputs with
    | nil =>
      simp only [playTurn, Option.some.injEq] at ht
      subst ht
      exact hb
    | cons x xs => simp at hn
  | succ n ih =>
    intro inputs t hn ht
    match inputs, hn, ht with
    | [], _, ht =>
      simp only [playTurn, Option.some.injEq] at ht
      subst ht
      exact hb
    | none :: rest, hn, ht =>
      simp only [playTurn] at ht
      exact ih rest t (by simp at hn; omega) ht
    | some _ :: [], _, ht =>
      simp only [playTurn, Option.some.injEq] at ht
      subst ht
      exact hb
    | some _ :: none :: rest, hn, ht =>
      simp only [playTurn] at ht
      exact ih rest t (by simp at hn; omega) ht
    | some (sc, sr) :: some (ec, er) :: rest, hn, ht =>
      have hlen : rest.length ≤ n := by simp at hn; omega
      simp only [playTurn] at ht
      by_cases hc : ConvertToIndex sc sr = -1 ∨ ConvertToIndex ec er = -1
      · rw [if_pos hc] at ht
        exact ih rest t hlen ht
      · rw [if_neg hc] at ht
        obtain ⟨r, c', hl, -⟩ := isLegalMove_result (b.playerPieces player)
          (b.opponentPieces player) b.kings (ConvertToIndex sc sr) (ConvertToIndex ec er)
          player 0
        rw [hl, Option.some_bind] at ht
        by_cases hr : r = 0
        · simp only [hr, if_true] at ht
          exact ih rest t hlen ht
        · simp only [hr, if_false] at ht
          cases ha : applyMove b player (ConvertToIndex sc sr) (ConvertToIndex ec er) c' with
          | none => rw [ha] at ht; simp at ht
          | some b' =>
            have hb' : Reachable b' :=
              Reachable.move b b' player _ _ 0 r c' hb hp hl hr ha
            rw [ha, Option.some_bind] at ht
            split_ifs at ht
            · exact chainLoop_reachable player hp rest b' _ _ t hb' ht
            · simp only [Option.some.injEq] at ht
              subst ht
              exact hb'

/-- One turn keeps a reachable board reachable: the form used to replay a game. -/
theorem reachable_turn (player : Int) (hp : player = 1 ∨ player = 2) (b b' : Board)
    (inputs : List Scan) (log : List Event) (rest : List Scan) (hb : Reachable b)
    (ht : playTurn player b inputs = some (Turn.done b' log rest)) : Reachable b' :=
  playTurn_reachable player hp b hb inputs.length inputs _ (Nat.le_refl _) ht

/-- The board after B3-C4, E6-F5, C4-B5, F5-E4, C2-B3 from the initial board,
Black moving first. -/
theorem reachable_after_five :
    Reachable ⟨0x200AA51AA, 0x55AA450010000000, 0⟩ := by
  have h0 : Reachable ⟨0xAA55AA, 0x55AA550000000000, 0⟩ := Reachable.init _ initializeBoard_eq
  have h1 : Reachable ⟨0x4A855AA, 0x55AA550000000000, 0⟩ :=
    reachable_turn 1 (by decide) _ _ [some (66, 3), some (67, 4)] [Event.move 17 26] [] h0
      (by decide)
  have h2 : Reachable ⟨0x4A855AA, 0x55AA452000000000, 0⟩ :=
    reachable_turn 2 (by decide) _ _ [some (69, 6), some (70, 5)] [Event.move 44 37] [] h1
      (by decide)
  have h3 : Reachable ⟨0x200A855AA, 0x55AA452000000000, 0⟩ :=
    reachable_turn 1 (by decide) _ _ [some (67, 4), some (66, 5)] [Event.move 26 33] [] h2
      (by decide)
  have h4 : Reachable ⟨0x200A855AA, 0x55AA450010000000, 0⟩ :=
    reachable_turn 2 (by decide) _ _ [some (70, 5), some (69, 4)] [Event.move 37 28] [] h3
      (by decide)
  exact reachable_turn 1 (by decide) _ _ [some (67, 2), some (66, 3)] [Event.move 10 17] [] h4
    (by decide)

/-- The board after F3-E4, E6-F5, D3-C4, F5xD3, G2-F3, G6-F5, H3-G4, A6-B5, F1-G2
from the initial board, Black moving first. -/
theorem reachable_after_nine :
    Reachable ⟨0x4422558A, 0x55AA042200080000, 0⟩ := by
  have h0 : Reachable ⟨0xAA55AA, 0x55AA550000000000, 0⟩ := Reachable.init _ initializeBoard_eq
  have h1 : Reachable ⟨0x108A55AA, 0x55AA550000000000, 0⟩ :=
    reachable_turn 1 (by decide) _ _ [some (70, 3), some (69, 4)] [Event.move 21 28] [] h0
      (by decide)
  have h2 : Reachable ⟨0x108A55AA, 0x55AA452000000000, 0⟩ :=
    reachable_turn 2 (by decide) _ _ [some (69, 6), some (70, 5)] [Event.move 44 37] [] h1
      (by decide)
  have h3 : Reachable ⟨0x148255AA, 0x55AA452000000000, 0⟩ :=
    reachable_turn 1 (by decide) _ _ [some (68, 3), some (67, 4)] [Event.move 19 26] [] h2
      (by decide)
  have h4 : Reachable ⟨0x48255AA, 0x55AA450000080000, 0⟩ :=
    reachable_turn 2 (by decide) _ _ [some (70, 5), some (68, 3)] [Event.move 37 19] [] h3
      (by decide)
  have h5 : Reachable ⟨0x4A215AA, 0x55AA450000080000, 0⟩ :=
    reachable_turn 1 (by decide) _ _ [some (71, 2), some (70, 3)] [Event.move 14 21] [] h4
      (by decide)
  have h6 : Reachable ⟨0x4A215AA, 0x55AA052000080000, 0⟩ :=
    reachable_turn 2 (by decide) _ _ [some (71, 6), some (70, 5)] [Event.move 46 37] [] h5
      (by decide)
  have h7 : Reachable ⟨0x442215AA, 0x55AA052000080000, 0⟩ :=
    reachable_turn 1 (by decide) _ _ [some (72, 3), some (71, 4)] [Event.move 23 30] [] h6
      (by decide)
  have h8 : Reachable ⟨0x442215AA, 0x55AA042200080000, 0⟩ :=
    reachable_turn 2 (by decide) _ _ [some (65, 6), some (66, 5)] [Event.move 40 33] [] h7
      (by decide)
  exact reachable_turn 1 (by decide) _ _ [some (70, 1), some (71, 2)] [Event.move 5 14] [] h8
    (by decide)

/-! ## The claims -/

/-- C1: on a square of the board `HasAvailableCapture` returns 1 exactly when one
of the four diagonal directions `(dr, dc)` has: the piece is a king or `dr` is
the player's forward direction (+1 for player 1, -1 otherwise), the landing
square two steps away lies on the board, the adjacent square holds an opponent
piece and the landing square is empty; otherwise it returns 0.  In particular,
when the only directions with such a landing are the backward ones, a non-king
gets 0 and a king gets 1. -/
theorem C1_hasAvailableCapture_iff (pp op k : Nat) (position player : Int)
    (hp : onBoard position) :
    (HasAvailableCapture pp op k position player = some 1 ↔
      ∃ dr dc : Int, (dr = 1 ∨ dr = -1) ∧ (dc = 1 ∨ dc = -1) ∧
        (isSet k position ∨ dr = (if player = 1 then 1 else -1)) ∧
        specLanding pp op position dr dc) ∧
    (HasAvailableCapture pp op k position player = some 0 ↔
      ¬ HasAvailableCapture pp op k position player = some 1) ∧
    ((∀ dc : Int, dc = 1 ∨ dc = -1 →
        ¬ specLanding pp op position (if player = 1 then 1 else -1) dc) →
      (∃ dc : Int, (dc = 1 ∨ dc = -1) ∧
        specLanding pp op position (-(if player = 1 then 1 else -1)) dc) →
      (¬ isSet k position → HasAvailableCapture pp op k position player = some 0) ∧
      (isSet k position → HasAvailableCapture pp op k position player = some 1)) := by
  have hiff := hasAvailableCapture_one_iff pp op k position player hp
  have hzero := hasAvailableCapture_zero_iff pp op k position player hp
  unfold specJump forwardOf at hiff
  unfold specLanding
  refine ⟨hiff, hzero, ?_⟩
  intro hfwd hback
  constructor
  · intro hk
    rw [hzero, hiff]
    rintro ⟨dr, dc, -, hdc, hd, hl⟩
    rcases hd with hd | hd
    · exact hk hd
    · subst hd
      exact hfwd dc hdc hl
  · intro hk
    rw [hiff]
    obtain ⟨dc, hdc, hl⟩ := hback
    refine ⟨_, dc, ?_, hdc, Or.inl hk, hl⟩
    split_ifs <;> decide

/-- C1 at a concrete position: a Black piece on 27 with a White piece behind it
on 18 and the square 9 beyond it empty. -/
theorem C1_hasAvailableCapture_witness :
    HasAvailableCapture (2 ^ 27) (2 ^ 18) 0 27 1 = some 0 ∧
      HasAvailableCapture (2 ^ 27) (2 ^ 18) (2 ^ 27) 27 1 = some 1 := by
  have hp : onBoard 27 := by decide
  have hf : ∀ dc : Int, dc = 1 ∨ dc = -1 →
      ¬ specLanding (2 ^ 27) (2 ^ 18) 27 (if (1 : Int) = 1 then 1 else -1) dc := by
    intro dc hdc
    rcases hdc with rfl | rfl <;> decide
  have hb : ∃ dc : Int, (dc = 1 ∨ dc = -1) ∧
      specLanding (2 ^ 27) (2 ^ 18) 27 (-(if (1 : Int) = 1 then 1 else -1)) dc :=
    ⟨-1, by decide, by decide⟩
  exact ⟨((C1_hasAvailableCapture_iff (2 ^ 27) (2 ^ 18) 0 27 1 hp).2.2 hf hb).1 (by decide),
    ((C1_hasAvailableCapture_iff (2 ^ 27) (2 ^ 18) (2 ^ 27) 27 1 hp).2.2 hf hb).2 (by decide)⟩

/-- C2: for a square of the board that holds a piece of the player,
`HasAvailableCapture` returns 1 exactly when `IsLegalMove` returns 2 for some end
square of the board (whatever the capture flag holds on entry), and returns 0
otherwise. -/
theorem C2_capture_agrees_with_legal_move (pp op k : Nat) (position player c : Int)
    (hp : onBoard position) (hs : isSet pp position) :
    (HasAvailableCapture pp op k position player = some 1 ↔
      ∃ e : Int, onBoard e ∧
        ∃ c', IsLegalMove pp op k position e player c = some (2, c')) ∧
    (HasAvailableCapture pp op k position player = some 0 ↔
      ¬ ∃ e : Int, onBoard e ∧
        ∃ c', IsLegalMove pp op k position e player c = some (2, c')) := by
  have hmain : HasAvailableCapture pp op k position player = some 1 ↔
      ∃ e : Int, onBoard e ∧
        ∃ c', IsLegalMove pp op k position e player c = some (2, c') := by
    rw [hasAvailableCapture_one_iff pp op k position player hp]
    constructor
    · rintro ⟨dr, dc, hdr, hdc, hk, hb, hm, he1, he2⟩
      obtain ⟨l1, l2, l3, l4⟩ := landing_facts hp hb
      refine ⟨_, l1, 1, ?_⟩
      rw [isLegalMove_two_iff]
      refine ⟨⟨hp, l1, hs, he1, he2, ?_, ?_, ?_, ?_⟩, rfl⟩
      · rw [l2]; unfold abs; rcases hdr with rfl | rfl <;> simp
      · rw [l3]; unfold abs; rcases hdc with rfl | rfl <;> simp
      · rw [l4]; exact hm
      · rw [l2]
        rcases hk with hk | hk
        · exact Or.inl hk
        · right; omega
    · rintro ⟨e, he, c', hl⟩
      rw [isLegalMove_two_iff] at hl
      obtain ⟨⟨-, -, -, h4, h5, h6, h7, h8, h9⟩, -⟩ := hl
      obtain ⟨dr, dc, hdr, hdc, g1, g2, g3⟩ := jump_geometry hp he h6 h7
      obtain ⟨-, -, -, l4⟩ := landing_facts hp g3
      subst g2
      rw [l4] at h8
      refine ⟨dr, dc, hdr, hdc, ?_, g3, h8, h4, h5⟩
      rcases h9 with h9 | h9
      · exact Or.inl h9
      · right; omega
  refine ⟨hmain, ?_⟩
  rw [hasAvailableCapture_zero_iff pp op k position player hp, hmain]

/-- C2 at a concrete position: a Black king on 27 with a White piece on 18 and
the square 9 empty. -/
theorem C2_capture_agrees_witness :
    HasAvailableCapture (2 ^ 27) (2 ^ 18) (2 ^ 27) 27 1 = some 1 ↔
      ∃ e : Int, onBoard e ∧
        ∃ c', IsLegalMove (2 ^ 27) (2 ^ 18) (2 ^ 27) 27 e 1 0 = some (2, c') :=
  (C2_capture_agrees_with_legal_move (2 ^ 27) (2 ^ 18) (2 ^ 27) 27 1 0 (by decide)
    (by decide)).1

/-- C3: on a board of `uint64_t` masks with `black_pieces & white_pieces == 0`
and `kings` inside `black_pieces | white_pieces`, every move that `IsLegalMove`
accepts (result 1 or 2, player 1 or 2) is applied without an undefined shift and
leaves a board with the same two properties; hence they hold in every board
reachable from `InitializeBoard`. -/
theorem C3_invariants_preserved :
    (∀ (b : Board) (player s e c r c' : Int), b.WellFormed → b.Inv →
      (player = 1 ∨ player = 2) →
      IsLegalMove (b.playerPieces player) (b.opponentPieces player) b.kings s e player c
        = some (r, c') →
      (r = 1 ∨ r = 2) →
      ∃ b', applyMove b player s e c' = some b' ∧ b'.WellFormed ∧
        b'.black_pieces &&& b'.white_pieces = 0 ∧
        b'.kings &&& (b'.black_pieces ||| b'.white_pieces) = b'.kings) ∧
    (∀ b : Board, Reachable b →
      b.black_pieces &&& b.white_pieces = 0 ∧
        b.kings &&& (b.black_pieces ||| b.white_pieces) = b.kings) := by
  constructor
  · intro b player s e c r c' hw hi _ hl hr
    have hr0 : r ≠ 0 := by omega
    obtain ⟨b', hb', hw', hi'⟩ := applyMove_preserves b player s e c r c' hw hi hl hr0
    exact ⟨b', hb', hw', hi'.1, hi'.2⟩
  · intro b hb
    exact (reachable_inv b hb).2

/-- C3 on the initial board: Black plays 17 to 26. -/
theorem C3_invariants_witness :
    ∃ b', applyMove ⟨0xAA55AA, 0x55AA550000000000, 0⟩ 1 17 26 0 = some b' ∧ b'.WellFormed ∧
      b'.black_pieces &&& b'.white_pieces = 0 ∧
      b'.kings &&& (b'.black_pieces ||| b'.white_pieces) = b'.kings :=
  C3_invariants_preserved.1 ⟨0xAA55AA, 0x55AA550000000000, 0⟩ 1 17 26 0 1 0
    (by decide) (by decide) (by decide) (by decide) (by decide)

/-- C4: `IsLegalMove` returns 2 exactly when start and end are on the board,
start holds a piece of the player, end is empty, the move is two rows and two
columns long, the midpoint square holds an opponent piece, and the piece is a
king or moves two rows in the player's forward direction; the capture flag is
then 1.  The midpoint lies on the board and differs from start and end, and it
is the square the capture step of the apply steps removes from the opponent's
mask. -/
theorem C4_capture_classification (b : Board) (player s e c : Int) :
    ((∃ c', IsLegalMove (b.playerPieces player) (b.opponentPieces player) b.kings s e player c
        = some (2, c')) ↔
      (onBoard s ∧ onBoard e ∧ isSet (b.playerPieces player) s ∧
        ¬ isSet (b.playerPieces player) e ∧ ¬ isSet (b.opponentPieces player) e ∧
        abs (rowOf e - rowOf s) = 2 ∧ abs (colOf e - colOf s) = 2 ∧
        isSet (b.opponentPieces player) (midSquare s e) ∧
        (isSet b.kings s ∨ rowOf e - rowOf s = 2 * (if player = 1 then 1 else -1)))) ∧
    (∀ c', IsLegalMove (b.playerPieces player) (b.opponentPieces player) b.kings s e player c
        = some (2, c') →
      c' = 1 ∧ onBoard (midSquare s e) ∧ midSquare s e ≠ s ∧ midSquare s e ≠ e ∧
      ∃ b', applyMove b player s e c' = some b' ∧
        ¬ isSet (b'.opponentPieces player) (midSquare s e) ∧
        ∀ i : Int, onBoard i → i ≠ midSquare s e →
          (isSet (b'.opponentPieces player) i ↔ isSet (b.opponentPieces player) i)) := by
  constructor
  · constructor
    · rintro ⟨c', h⟩
      exact ((isLegalMove_two_iff _ _ _ _ _ _ _ _).mp h).1
    · intro h
      exact ⟨1, (isLegalMove_two_iff _ _ _ _ _ _ _ _).mpr ⟨h, rfl⟩⟩
  · intro c' h
    obtain ⟨⟨hs, he, -, -, -, h6, h7, -, -⟩, hc⟩ := (isLegalMove_two_iff _ _ _ _ _ _ _ _).mp h
    obtain ⟨m1, m2, m3, -, -⟩ := midSquare_facts hs he h6 h7
    obtain ⟨b', hb', -, hopp, -⟩ := applyMove_bits b player s e c' hs he (fun _ => m1)
    refine ⟨hc, m1, m2, m3, b', hb', ?_, ?_⟩
    · unfold isSet
      rw [hopp, hc]
      simp
    · intro i hi hne
      unfold isSet
      rw [hopp, hc]
      have h64 : i.toNat < 64 := by unfold onBoard at hi; omega
      have hn : i.toNat ≠ (midSquare s e).toNat := by
        unfold onBoard at hi m1; omega
      simp [h64, hn]

/-- C4 at a concrete position: a Black man on 27 jumps over a White piece on 36
to the empty square 45. -/
theorem C4_capture_classification_witness :
    ∃ c', IsLegalMove (2 ^ 27) (2 ^ 36) 0 27 45 1 0 = some (2, c') :=
  (C4_capture_classification ⟨2 ^ 27, 2 ^ 36, 0⟩ 1 27 45 0).1.mpr (by decide)

/-- C5: `IsLegalMove` returns 1 exactly when start and end are on the board,
start holds a piece of the player, end is empty, the move is one row and one
column long, and the piece is a king or moves one row in the player's forward
direction (+1 for player 1, -1 otherwise); the capture flag is then 0.  So an
accepted step of a non-king Black piece goes to row + 1, a backward diagonal
step of a non-king is rejected with 0, and a king may step in all four diagonal
directions.  On the initial board, Black to move, 17 to 10 returns 0 and 17 to
26 returns 1. -/
theorem C5_simple_move_classification (pp op k : Nat) (s e player c : Int) :
    ((∃ c', IsLegalMove pp op k s e player c = some (1, c')) ↔
      (onBoard s ∧ onBoard e ∧ isSet pp s ∧ ¬ isSet pp e ∧ ¬ isSet op e ∧
        abs (rowOf e - rowOf s) = 1 ∧ abs (colOf e - colOf s) = 1 ∧
        (isSet k s ∨ rowOf e - rowOf s = (if player = 1 then 1 else -1)))) ∧
    (∀ c', IsLegalMove pp op k s e player c = some (1, c') → c' = 0) ∧
    (player = 1 → ¬ isSet k s → (∃ c', IsLegalMove pp op k s e player c = some (1, c')) →
      rowOf e = rowOf s + 1) ∧
    (¬ isSet k s → abs (rowOf e - rowOf s) = 1 →
      rowOf e - rowOf s = -(if player = 1 then 1 else -1) →
      ∃ c', IsLegalMove pp op k s e player c = some (0, c')) ∧
    (isSet k s → onBoard s → onBoard e → isSet pp s → ¬ isSet pp e → ¬ isSet op e →
      abs (rowOf e - rowOf s) = 1 → abs (colOf e - colOf s) = 1 →
      IsLegalMove pp op k s e player c = some (1, 0)) ∧
    (∃ b0, InitializeBoard = some b0 ∧
      IsLegalMove b0.black_pieces b0.white_pieces b0.kings 17 10 1 0 = some (0, 0) ∧
      IsLegalMove b0.black_pieces b0.white_pieces b0.kings 17 26 1 0 = some (1, 0)) := by
  have hone : ∀ c', IsLegalMove pp op k s e player c = some (1, c') ↔ _ :=
    fun c' => isLegalMove_one_iff pp op k s e player c c'
  unfold forwardOf at hone
  refine ⟨⟨?_, ?_⟩, ?_, ?_, ?_, ?_, ?_⟩
  · rintro ⟨c', h⟩
    exact ((hone c').mp h).1
  · intro h
    exact ⟨0, (hone 0).mpr ⟨h, rfl⟩⟩
  · intro c' h
    exact ((hone c').mp h).2
  · rintro hp hk ⟨c', h⟩
    obtain ⟨⟨-, -, -, -, -, -, -, h8⟩, -⟩ := (hone c').mp h
    rcases h8 with h8 | h8
    · exact absurd h8 hk
    · rw [if_pos hp] at h8
      omega
  · intro hk habs hback
    obtain ⟨r, c', h, hr⟩ := isLegalMove_result pp op k s e player c
    rcases hr with rfl | rfl | rfl
    · exact ⟨c', h⟩
    · obtain ⟨⟨-, -, -, -, -, -, -, h8⟩, -⟩ := (hone c').mp h
      rcases h8 with h8 | h8
      · exact absurd h8 hk
      · exfalso
        split_ifs at h8 hback <;> omega
    · obtain ⟨⟨-, -, -, -, -, h6, -⟩, -⟩ := (isLegalMove_two_iff pp op k s e player c c').mp h
      rw [habs] at h6
      exact absurd h6 (by decide)
  · intro hk hs he h1 h2 h3 h4 h5
    exact (hone 0).mpr ⟨⟨hs, he, h1, h2, h3, h4, h5, Or.inl hk⟩, rfl⟩
  · exact ⟨_, initializeBoard_eq, by decide, by decide⟩

/-- C6, counterexample: a non-king Black piece on 27, a White piece on the
midpoint 18 and the destination 9 empty, two rows and two columns away; the
midpoint holds an opponent piece and the destination is empty, yet the result
is 0, not 2, because the jump goes backward. -/
theorem C6_counterexample :
    onBoard 27 ∧ onBoard 9 ∧ isSet (2 ^ 27) 27 ∧
      abs (rowOf 9 - rowOf 27) = 2 ∧ abs (colOf 9 - colOf 27) = 2 ∧
      (2 ^ 27 : Nat) &&& 2 ^ 18 = 0 ∧
      isSet (2 ^ 18) (midSquare 27 9) ∧ ¬ isSet (2 ^ 27) 9 ∧ ¬ isSet (2 ^ 18) 9 ∧
      IsLegalMove (2 ^ 27) (2 ^ 18) 0 27 9 1 0 = some (0, 1) := by
  decide

/-- C6, amended: for start and end on the board, start holding a piece of the
player and end two rows and two columns away, `IsLegalMove` returns 2 exactly
when the midpoint holds an opponent piece, the destination is empty and the
piece is a king or jumps in the player's forward direction.  A jump over a
midpoint that holds no opponent piece returns 0; on disjoint masks that covers
a jump over an own piece. -/
theorem C6_capture_legality (pp op k : Nat) (s e player c : Int)
    (hs : onBoard s) (he : onBoard e) (hown : isSet pp s)
    (hr : abs (rowOf e - rowOf s) = 2) (hc : abs (colOf e - colOf s) = 2) :
    ((∃ c', IsLegalMove pp op k s e player c = some (2, c')) ↔
      (isSet op (midSquare s e) ∧ (¬ isSet pp e ∧ ¬ isSet op e) ∧
        (isSet k s ∨ rowOf e - rowOf s = 2 * (if player = 1 then 1 else -1)))) ∧
    (¬ isSet op (midSquare s e) → IsLegalMove pp op k s e player c = some (0, c)) ∧
    (pp &&& op = 0 → isSet pp (midSquare s e) →
      IsLegalMove pp op k s e player c = some (0, c)) := by
  have htwo : ∀ c', IsLegalMove pp op k s e player c = some (2, c') ↔ _ :=
    fun c' => isLegalMove_two_iff pp op k s e player c c'
  unfold forwardOf at htwo
  have hzero : ¬ isSet op (midSquare s e) → IsLegalMove pp op k s e player c = some (0, c) := by
    intro hm
    rw [isLegalMove_onBoard pp op k s e player c hs he]
    unfold classify
    rw [← hr] at hc
    have h12 : abs (rowOf e - rowOf s) ≠ 1 := by rw [hr]; decide
    split_ifs <;> rfl
  refine ⟨⟨?_, ?_⟩, hzero, ?_⟩
  · rintro ⟨c', h⟩
    obtain ⟨⟨-, -, -, h4, h5, -, -, h8, h9⟩, -⟩ := (htwo c').mp h
    exact ⟨h8, ⟨h4, h5⟩, h9⟩
  · rintro ⟨h8, ⟨h4, h5⟩, h9⟩
    exact ⟨1, (htwo 1).mpr ⟨⟨hs, he, hown, h4, h5, hr, hc, h8, h9⟩, rfl⟩⟩
  · intro hd hm
    apply hzero
    intro ho
    exact (and_eq_zero_bits pp op).mp hd _ ⟨hm, ho⟩

/-- C6 amended, at concrete positions: the backward jump of the counterexample is
a capture once the piece is a king. -/
theorem C6_capture_legality_witness :
    ∃ c', IsLegalMove (2 ^ 27) (2 ^ 18) (2 ^ 27) 27 9 1 0 = some (2, c') :=
  (C6_capture_legality (2 ^ 27) (2 ^ 18) (2 ^ 27) 27 9 1 0 (by decide) (by decide) (by decide)
    (by decide) (by decide)).1.mpr (by decide)

/-- C7: `IsLegalMove` returns 0, leaving the capture flag as it was, when start
or end is off the board (no mask is indexed: the result is defined), when start
holds no piece of the player, when end is occupied, when the row and column
distances differ, and when the row distance is neither 1 nor 2 (so also for
`start = end`); its result is always 0, 1 or 2. -/
theorem C7_rejections (pp op k : Nat) (s e player c : Int) :
    (¬ (onBoard s ∧ onBoard e) → IsLegalMove pp op k s e player c = some (0, c)) ∧
    (¬ isSet pp s → IsLegalMove pp op k s e player c = some (0, c)) ∧
    (isSet pp e ∨ isSet op e → IsLegalMove pp op k s e player c = some (0, c)) ∧
    (abs (rowOf e - rowOf s) ≠ abs (colOf e - colOf s) →
      IsLegalMove pp op k s e player c = some (0, c)) ∧
    (abs (rowOf e - rowOf s) ≠ 1 → abs (rowOf e - rowOf s) ≠ 2 →
      IsLegalMove pp op k s e player c = some (0, c)) ∧
    (s = e → IsLegalMove pp op k s e player c = some (0, c)) ∧
    (∃ r c', IsLegalMove pp op k s e player c = some (r, c') ∧ (r = 0 ∨ r = 1 ∨ r = 2)) := by
  have hcases := isLegalMove_cases pp op k s e player c
  unfold classify at hcases
  refine ⟨?_, ?_, ?_, ?_, ?_, ?_, isLegalMove_result pp op k s e player c⟩
  · exact isLegalMove_offBoard pp op k s e player c
  · intro h
    rw [hcases]
    split_ifs <;> rfl
  · intro h
    rw [hcases]
    split_ifs <;> rfl
  · intro h
    rw [hcases]
    split_ifs <;> rfl
  · intro h1 h2
    rw [hcases]
    split_ifs <;> rfl
  · intro h
    subst h
    rw [hcases]
    have h0 : abs (rowOf s - rowOf s) = 0 := by unfold abs; simp
    rw [h0]
    split_ifs <;> first | rfl | (exfalso; omega)

/-- C7 at concrete inputs on the initial board: an end square off the board and
a three-row diagonal move are rejected with the capture flag left at 5. -/
theorem C7_rejections_witness :
    IsLegalMove 0xAA55AA 0x55AA550000000000 0 17 (-1) 1 5 = some (0, 5) ∧
      IsLegalMove 0xAA55AA 0x55AA550000000000 0 8 35 1 5 = some (0, 5) :=
  ⟨(C7_rejections 0xAA55AA 0x55AA550000000000 0 17 (-1) 1 5).1 (by decide),
    (C7_rejections 0xAA55AA 0x55AA550000000000 0 8 35 1 5).2.2.2.2.1 (by decide) (by decide)⟩

/-- C8: when the start square of an accepted move is set in `kings`, after the
apply steps the end square is set in `kings` and the start square is set neither
in `kings` nor in either piece mask. -/
theorem C8_king_follows_piece (b : Board) (player s e c r c' : Int) (hi : b.Inv)
    (hl : IsLegalMove (b.playerPieces player) (b.opponentPieces player) b.kings s e player c
      = some (r, c'))
    (hr : r = 1 ∨ r = 2) (hk : isSet b.kings s) :
    ∃ b', applyMove b player s e c' = some b' ∧ isSet b'.kings e ∧ ¬ isSet b'.kings s ∧
      ¬ isSet b'.black_pieces s ∧ ¬ isSet b'.white_pieces s := by
  have hr0 : r ≠ 0 := by omega
  obtain ⟨hs, he, h1, h2, h3, h4⟩ := accepted_facts _ _ _ _ _ _ _ _ _ hl hr0
  have hm : c' ≠ 0 → onBoard (midSquare s e) := by
    rcases h4 with ⟨-, h0⟩ | ⟨-, -, hm, -⟩
    · exact fun hc => absurd h0 hc
    · exact fun _ => hm
  obtain ⟨b', hb', hown, hopp, hkb⟩ := applyMove_bits b player s e c' hs he hm
  obtain ⟨d1, -⟩ := (inv_bits b player).mp hi
  unfold isSet at h1 h2 h3 hk
  have hse : s.toNat ≠ e.toNat := by
    intro heq
    rw [heq] at h1
    exact h2 h1
  have hmid : c' = 0 ∨ (midSquare s e).toNat ≠ e.toNat := by
    rcases h4 with ⟨-, h0⟩ | ⟨-, -, -, ho⟩
    · exact Or.inl h0
    · right
      intro heq
      unfold isSet at ho
      rw [heq] at ho
      exact h3 ho
  have hes : e.toNat < 64 := by unfold onBoard at he; omega
  refine ⟨b', hb', ?_, ?_, not_isSet_both b' player s ?_ ?_⟩
  · unfold isSet
    rw [hkb, if_pos hk]
    rcases hmid with h0 | hne
    · simp [h0]
    · simp [hes, Ne.symm hne]
  · unfold isSet
    rw [hkb, if_pos hk]
    simp [hse]
  · unfold isSet
    rw [hown]
    simp [hse]
  · unfold isSet
    rw [hopp]
    have := d1 s.toNat
    simp only [h1, true_and] at this
    simp [this]

/-- C8 at a concrete position: a Black king on 27 steps back to 18. -/
theorem C8_king_follows_piece_witness :
    ∃ b', applyMove ⟨2 ^ 27, 2 ^ 36, 2 ^ 27⟩ 1 27 18 0 = some b' ∧ isSet b'.kings 18 ∧
      ¬ isSet b'.kings 27 ∧ ¬ isSet b'.black_pieces 27 ∧ ¬ isSet b'.white_pieces 27 :=
  C8_king_follows_piece ⟨2 ^ 27, 2 ^ 36, 2 ^ 27⟩ 1 27 18 0 1 0 (by decide) (by decide)
    (by decide) (by decide)

/-- C9: `CheckPromotion position player` holds exactly when `player = 1` and the
row `position / 8` is 7, or `player = 2` and that row is 0.  After the apply steps
of an accepted move of a non-king piece that ends on row 7 for Black (player 1)
or on row 0 for White (player 2), the end square holds the mover's piece and is
set in `kings`: the promotion is decided on the new square and is the last
step. -/
theorem C9_promotion :
    (∀ position player : Int, CheckPromotion position player = true ↔
      (player = 1 ∧ position.tdiv 8 = 7) ∨ (player = 2 ∧ position.tdiv 8 = 0)) ∧
    (∀ (b : Board) (player s e c r c' : Int), b.Inv →
      IsLegalMove (b.playerPieces player) (b.opponentPieces player) b.kings s e player c
        = some (r, c') →
      (r = 1 ∨ r = 2) → ¬ isSet b.kings s →
      ((player = 1 ∧ rowOf e = 7) ∨ (player = 2 ∧ rowOf e = 0)) →
      ∃ b', applyMove b player s e c' = some b' ∧ isSet b'.kings e ∧
        isSet (b'.playerPieces player) e) := by
  have hcp : ∀ position player : Int, CheckPromotion position player = true ↔
      (player = 1 ∧ position.tdiv 8 = 7) ∨ (player = 2 ∧ position.tdiv 8 = 0) := by
    intro position player
    unfold CheckPromotion
    simp
  refine ⟨hcp, ?_⟩
  intro b player s e c r c' _ hl hr _ hrow
  have hr0 : r ≠ 0 := by omega
  obtain ⟨hs, he, -, -, -, h4⟩ := accepted_facts _ _ _ _ _ _ _ _ _ hl hr0
  have hm : c' ≠ 0 → onBoard (midSquare s e) := by
    rcases h4 with ⟨-, h0⟩ | ⟨-, -, hm, -⟩
    · exact fun hc => absurd h0 hc
    · exact fun _ => hm
  obtain ⟨b', hb', hown, -, hkb⟩ := applyMove_bits b player s e c' hs he hm
  have hpromo : CheckPromotion e player = true := (hcp e player).mpr hrow
  refine ⟨b', hb', ?_, ?_⟩
  · unfold isSet
    rw [hkb, hpromo]
    simp
  · unfold isSet
    rw [hown]
    simp

/-- C9 at a concrete position: a Black man on 54 steps to 63 on row 7. -/
theorem C9_promotion_witness :
    ∃ b', applyMove ⟨2 ^ 54, 2 ^ 9, 0⟩ 1 54 63 0 = some b' ∧ isSet b'.kings 63 ∧
      isSet (b'.playerPieces 1) 63 :=
  C9_promotion.2 ⟨2 ^ 54, 2 ^ 9, 0⟩ 1 54 63 0 1 0 (by decide) (by decide) (by decide)
    (by decide) (by decide)

/-- C10: after the apply steps of an accepted move on a board of `uint64_t`
masks, the mover's mask is the old one without start and with end; with result 1
the opponent's mask is unchanged; with result 2 the opponent's mask is the old
one without the midpoint square, and the midpoint is not set in `kings`.  The
mover's piece count is unchanged and a capture lowers the opponent's piece count
by exactly one. -/
theorem C10_effect_on_masks (b : Board) (player s e c r c' : Int) (hw : b.WellFormed)
    (hl : IsLegalMove (b.playerPieces player) (b.opponentPieces player) b.kings s e player c
      = some (r, c'))
    (hr : r = 1 ∨ r = 2) :
    ∃ b', applyMove b player s e c' = some b' ∧
      (∀ i : Nat, (b'.playerPieces player).testBit i =
        ((b.playerPieces player).testBit i && decide (i ≠ s.toNat) || decide (i = e.toNat))) ∧
      (r = 1 → b'.opponentPieces player = b.opponentPieces player) ∧
      (r = 2 →
        (∀ i : Nat, (b'.opponentPieces player).testBit i =
          ((b.opponentPieces player).testBit i && decide (i ≠ (midSquare s e).toNat))) ∧
        ¬ isSet b'.kings (midSquare s e)) ∧
      pieceCount (b'.playerPieces player) = pieceCount (b.playerPieces player) ∧
      (r = 1 → pieceCount (b'.opponentPieces player) = pieceCount (b.opponentPieces player)) ∧
      (r = 2 →
        pieceCount (b'.opponentPieces player) + 1 = pieceCount (b.opponentPieces player)) := by
  have hr0 : r ≠ 0 := by omega
  obtain ⟨hs, he, h1, h2, h3, h4⟩ := accepted_facts _ _ _ _ _ _ _ _ _ hl hr0
  have hm : c' ≠ 0 → onBoard (midSquare s e) := by
    rcases h4 with ⟨-, h0⟩ | ⟨-, -, hm, -⟩
    · exact fun hc => absurd h0 hc
    · exact fun _ => hm
  obtain ⟨b', hb', hown, hopp, hkb⟩ := applyMove_bits b player s e c' hs he hm
  obtain ⟨w1, w2, -⟩ := (wellFormed_bits b player).mp hw
  unfold isSet at h1 h2 h3
  have hs64 : s.toNat < 64 := by unfold onBoard at hs; omega
  have he64 : e.toNat < 64 := by unfold onBoard at he; omega
  have hown' : ∀ i : Nat, (b'.playerPieces player).testBit i =
      ((b.playerPieces player).testBit i && decide (i ≠ s.toNat) || decide (i = e.toNat)) := by
    intro i
    rw [hown]
    by_cases h64 : i < 64
    · simp [h64]
    · rw [w1 i (by omega)]
      simp
  have hopp1 : c' = 0 → b'.opponentPieces player = b.opponentPieces player := by
    intro h0
    apply Nat.eq_of_testBit_eq
    intro i
    rw [hopp, h0]
    simp
  have hopp2 : c' = 1 → ∀ i : Nat, (b'.opponentPieces player).testBit i =
      ((b.opponentPieces player).testBit i && decide (i ≠ (midSquare s e).toNat)) := by
    intro h1' i
    rw [hopp, h1']
    by_cases h64 : i < 64
    · simp [h64]
    · rw [w2 i (by omega)]
      simp
  have h2' : (b.playerPieces player).testBit e.toNat = false := by simpa using h2
  refine ⟨b', hb', hown', ?_, ?_, ?_, ?_, ?_⟩
  · intro hr1
    rcases h4 with ⟨-, h0⟩ | ⟨hr2, -⟩
    · exact hopp1 h0
    · omega
  · intro hr2
    rcases h4 with ⟨hr1, -⟩ | ⟨-, hc1, hmb, hmo⟩
    · omega
    · refine ⟨hopp2 hc1, ?_⟩
      unfold isSet at hmo ⊢
      have hme : (midSquare s e).toNat ≠ e.toNat := by
        intro heq
        rw [heq] at hmo
        exact h3 hmo
      rw [hkb, hc1]
      simp [hme]
  · exact pieceCount_move _ _ _ _ hs64 he64 h1 h2' hown'
  · intro hr1
    rcases h4 with ⟨-, h0⟩ | ⟨hr2, -⟩
    · rw [hopp1 h0]
    · omega
  · intro hr2
    rcases h4 with ⟨hr1, -⟩ | ⟨-, hc1, hmb, hmo⟩
    · omega
    · have hm64 : (midSquare s e).toNat < 64 := by unfold onBoard at hmb; omega
      exact pieceCount_clear _ _ _ hm64 hmo (hopp2 hc1)

/-- C10 at a concrete position: a Black piece on 27 jumps over a White king on
36 to 45. -/
theorem C10_effect_on_masks_witness :
    ∃ b', applyMove ⟨2 ^ 27, 2 ^ 36 + 2 ^ 54, 2 ^ 36⟩ 1 27 45 1 = some b' ∧
      b'.black_pieces = 2 ^ 45 ∧ b'.white_pieces = 2 ^ 54 ∧ b'.kings = 0 ∧
      pieceCount (b'.opponentPieces 1) + 1 = pieceCount (2 ^ 36 + 2 ^ 54) := by
  obtain ⟨b', hb', -, -, -, -, -, h6⟩ :=
    C10_effect_on_masks ⟨2 ^ 27, 2 ^ 36 + 2 ^ 54, 2 ^ 36⟩ 1 27 45 0 2 1 (by decide) (by decide)
      (by decide)
  have heq : applyMove ⟨2 ^ 27, 2 ^ 36 + 2 ^ 54, 2 ^ 36⟩ 1 27 45 1
      = some ⟨2 ^ 45, 2 ^ 54, 0⟩ := by decide
  rw [heq] at hb'
  simp only [Option.some.injEq] at hb'
  subst hb'
  exact ⟨_, heq, rfl, rfl, rfl, h6 rfl⟩

/-- C11: inside the multi-jump loop a jump that lands on the mover's promotion
row ends the loop with that jump (main.c 328-332).  The opening capture of a
turn does not: Black's man on 43 captures to 61 on row 7 and is crowned, and the
turn still asks for another jump from 61 and applies the jump 61 to 47.  The
same happens in a game from the initial board: after nine moves White's man on
19 captures to 5 on row 0 and is crowned, and the turn still asks for another
jump from 5 and applies the jump 5 to 23. -/
theorem C11_stop_on_promotion :
    (∀ (player : Int) (b b' : Board) (end_ : Int) (log : List Event) (col row h c' : Int)
      (rest : List Scan),
      HasAvailableCapture (b.playerPieces player) (b.opponentPieces player) b.kings end_
        player = some h → h ≠ 0 →
      ConvertToIndex col row ≠ -1 →
      IsLegalMove (b.playerPieces player) (b.opponentPieces player) b.kings end_
        (ConvertToIndex col row) player 0 = some (2, c') →
      applyMove b player end_ (ConvertToIndex col row) 1 = some b' →
      CheckPromotion (ConvertToIndex col row) player = true →
      chainLoop player b end_ log (some (col, row) :: rest) =
        some (Turn.done b' (log ++ [Event.request end_] ++
          [Event.move end_ (ConvertToIndex col row)]) rest)) ∧
    (CheckPromotion 61 1 = true ∧
      playTurn 1 ⟨2 ^ 43, 2 ^ 52 + 2 ^ 54, 0⟩ [some (68, 6), some (70, 8), some (72, 6), none] =
        some (Turn.done ⟨2 ^ 47, 0, 2 ^ 47⟩
          [Event.move 43 61, Event.request 61, Event.move 61 47] [none])) ∧
    (Reachable ⟨0x4422558A, 0x55AA042200080000, 0⟩ ∧ CheckPromotion 5 2 = true ∧
      playTurn 2 ⟨0x4422558A, 0x55AA042200080000, 0⟩
          [some (68, 3), some (70, 1), some (72, 3)] =
        some (Turn.done ⟨0x4422058A, 0x55AA042200800000, 0x800000⟩
          [Event.move 19 5, Event.request 5, Event.move 5 23] [])) := by
  refine ⟨?_, by decide, reachable_after_nine, by decide, by decide⟩
  intro player b b' end_ log col row h c' rest hh h0 hc hl ha hp
  rw [chainLoop_parsed player b end_ log col row h rest hh h0, if_neg hc, hl]
  simp only [Option.some_bind, ne_eq, not_true_eq_false, if_false, ha, hp, if_true]

/-- C12: after a rejected input the loop goes on from the rejected square.
Black's man on 9 captures to 27 and can jump again; the input names 11, where
another Black man stands, and is rejected (27 to 11 is no jump); the loop then
evaluates `HasAvailableCapture` at 11, asks for a jump from 11 and applies the
jump 11 to 29 of that other man.  The same happens in a game from the initial
board: after five moves White's man on 42 captures to 24, the input 28 (another
White man) is rejected, and the loop asks for a jump from 28 and applies the
jump 28 to 10 of that other man. -/
theorem C12_chain_switches_piece :
    IsLegalMove (2 ^ 27 + 2 ^ 11) (2 ^ 20 + 2 ^ 34) 0 27 11 1 0 = some (0, 0) ∧
      HasAvailableCapture (2 ^ 27 + 2 ^ 11) (2 ^ 20 + 2 ^ 34) 0 11 1 = some 1 ∧
      playTurn 1 ⟨2 ^ 9 + 2 ^ 11, 2 ^ 18 + 2 ^ 20 + 2 ^ 34, 0⟩
          [some (66, 2), some (68, 4), some (68, 2), some (70, 4)] =
        some (Turn.done ⟨2 ^ 27 + 2 ^ 29, 2 ^ 34, 0⟩
          [Event.move 9 27, Event.request 27, Event.request 11, Event.move 11 29] []) ∧
      Reachable ⟨0x200AA51AA, 0x55AA450010000000, 0⟩ ∧
      IsLegalMove 0x55AA410011000000 0xAA51AA 0 24 28 2 0 = some (0, 0) ∧
      HasAvailableCapture 0x55AA410011000000 0xAA51AA 0 28 2 = some 1 ∧
      playTurn 2 ⟨0x200AA51AA, 0x55AA450010000000, 0⟩
          [some (67, 6), some (65, 4), some (69, 4), some (67, 2)] =
        some (Turn.done ⟨0xA251AA, 0x55AA410001000400, 0⟩
          [Event.move 42 24, Event.request 24, Event.request 28, Event.move 28 10] []) :=
  ⟨by decide, by decide, by decide, reachable_after_five, by decide, by decide, by decide⟩

/-- C13, counterexample: on a board reached from the initial one in five moves,
White's man on 42 captures to 24 and can jump again; the input names 24 itself,
which `IsLegalMove` rejects with 0; the chain is not aborted: the same man is
asked again and its jump 24 to 10 is applied. -/
theorem C13_counterexample :
    Reachable ⟨0x200AA51AA, 0x55AA450010000000, 0⟩ ∧
      IsLegalMove 0x55AA410011000000 0xAA51AA 0 24 24 2 0 = some (0, 0) ∧
      playTurn 2 ⟨0x200AA51AA, 0x55AA450010000000, 0⟩
          [some (67, 6), some (65, 4), some (65, 4), some (67, 2)] =
        some (Turn.done ⟨0xA851AA, 0x55AA410010000400, 0⟩
          [Event.move 42 24, Event.request 24, Event.request 24, Event.move 24 10] []) :=
  ⟨reachable_after_five, by decide, by decide⟩

/-- C13, amended: a pass of the multi-jump loop on an invalid input leaves the
three masks exactly as they were and applies no jump.  On an unparsable input
the loop is left, so no further jump is applied in that turn; on a coordinate
outside the board or a move for which `IsLegalMove` does not return 2 the pass
ends by going back to the loop condition. -/
theorem C13_invalid_input_in_chain (player : Int) (b : Board) (end_ : Int) :
    chainPass player b end_ none = some (Pass.left b [Event.request end_]) ∧
    (∀ (log : List Event) (rest : List Scan) (h : Int),
      HasAvailableCapture (b.playerPieces player) (b.opponentPieces player) b.kings end_
        player = some h → h ≠ 0 →
      chainLoop player b end_ log (none :: rest) =
        some (Turn.done b (log ++ [Event.request end_]) rest)) ∧
    (∀ col row : Int, ConvertToIndex col row = -1 →
      ∃ end2 : Int, chainPass player b end_ (some (col, row)) =
        some (Pass.again b end2 [Event.request end_])) ∧
    (∀ col row res c' : Int,
      IsLegalMove (b.playerPieces player) (b.opponentPieces player) b.kings end_
        (ConvertToIndex col row) player 0 = some (res, c') → res ≠ 2 →
      ∃ end2 : Int, chainPass player b end_ (some (col, row)) =
        some (Pass.again b end2 [Event.request end_])) := by
  refine ⟨rfl, ?_, ?_, ?_⟩
  · intro log rest h hh h0
    exact chainLoop_unparsed player b end_ log h rest hh h0
  · intro col row hc
    refine ⟨ConvertToIndex col row, ?_⟩
    simp only [chainPass, hc, if_true]
  · intro col row res c' hl hr
    refine ⟨ConvertToIndex col row, ?_⟩
    simp only [chainPass, hl, Option.some_bind, ne_eq, hr, not_false_eq_true, if_true, ite_self]

/-- C13 amended, on the board of the counterexample after White's capture 42 to
24: an unparsable input ends the pass with the board as it was, and so does the
rejected input that names 24. -/
theorem C13_invalid_input_in_chain_witness :
    chainPass 2 ⟨0xAA51AA, 0x55AA410011000000, 0⟩ 24 none =
        some (Pass.left ⟨0xAA51AA, 0x55AA410011000000, 0⟩ [Event.request 24]) ∧
      ∃ end2 : Int, chainPass 2 ⟨0xAA51AA, 0x55AA410011000000, 0⟩ 24 (some (65, 4)) =
        some (Pass.again ⟨0xAA51AA, 0x55AA410011000000, 0⟩ end2 [Event.request 24]) :=
  ⟨(C13_invalid_input_in_chain 2 ⟨0xAA51AA, 0x55AA410011000000, 0⟩ 24).1,
    (C13_invalid_input_in_chain 2 ⟨0xAA51AA, 0x55AA410011000000, 0⟩ 24).2.2.2 65 4 0 0
      (by decide) (by decide)⟩

/-- C14: `InitializeBoard` stores `black_pieces = 0x0000000000AA55AA`,
`white_pieces = 0x55AA550000000000` and `kings = 0`, whatever the masks held
before (it overwrites all three): 12 Black squares, all on rows 0..2, 12 White
squares, all on rows 5..7, no square in both, and every occupied square has
row + column odd. -/
theorem C14_initial_board :
    ∃ b, InitializeBoard = some b ∧
      b.black_pieces = 0x0000000000AA55AA ∧ b.white_pieces = 0x55AA550000000000 ∧
      b.kings = 0 ∧ b.black_pieces &&& b.white_pieces = 0 ∧
      pieceCount b.black_pieces = 12 ∧ pieceCount b.white_pieces = 12 ∧
      (∀ i, b.black_pieces.testBit i = true → i / 8 ≤ 2 ∧ darkSquare i) ∧
      (∀ i, b.white_pieces.testBit i = true → 5 ≤ i / 8 ∧ i / 8 ≤ 7 ∧ darkSquare i) := by
  refine ⟨_, initializeBoard_eq, rfl, rfl, rfl, by decide, by decide, by decide, ?_, ?_⟩
  · exact bits_of_u64 _ _ (by decide) (by decide)
  · exact bits_of_u64 _ _ (by decide) (by decide)

/-- C15: `ConvertToIndex` returns -1 exactly when the upper-cased column is
outside A..H (codes 65..72) or the row is outside 1..8.  Otherwise the result is
`(row - 1) * 8 + (upper-cased column - 65)`, lies in 0..63, and the printed
name of that square is the upper-cased column and the row again; every square
0..63 is the index of its printed name, and a lower-case column letter gives
the index of its upper-case letter. -/
theorem C15_convertToIndex :
    (∀ c r : Int, ConvertToIndex c r = -1 ↔
      (toupper c < 65 ∨ toupper c > 72 ∨ r < 1 ∨ r > 8)) ∧
    (∀ c r : Int, ConvertToIndex c r ≠ -1 →
      ConvertToIndex c r = (r - 1) * 8 + (toupper c - 65) ∧
      onBoard (ConvertToIndex c r) ∧
      squareName (ConvertToIndex c r) = (toupper c, r)) ∧
    (∀ i : Int, onBoard i → ConvertToIndex (squareName i).1 (squareName i).2 = i) ∧
    (∀ c r : Int, 97 ≤ c → c ≤ 122 → ConvertToIndex c r = ConvertToIndex (c - 32) r) := by
  refine ⟨?_, ?_, ?_, ?_⟩
  · intro c r
    rw [convertToIndex_eq]
    generalize toupper c = u
    constructor
    · intro h
      by_contra hn
      rw [if_neg hn] at h
      omega
    · intro h
      rw [if_pos h]
  · intro c r h
    rw [convertToIndex_eq] at h ⊢
    generalize toupper c = u at h ⊢
    by_cases hv : u < 65 ∨ u > 72 ∨ r < 1 ∨ r > 8
    · rw [if_pos hv] at h
      exact absurd rfl h
    · rw [if_neg hv]
      have h0 : 0 ≤ (r - 1) * 8 + (u - 65) := by omega
      refine ⟨rfl, ⟨h0, by omega⟩, ?_⟩
      unfold squareName
      rw [rowOf_eq h0, colOf_eq h0]
      ext
      · show 65 + ((r - 1) * 8 + (u - 65)) % 8 = u
        omega
      · show ((r - 1) * 8 + (u - 65)) / 8 + 1 = r
        omega
  · intro i hi
    obtain ⟨h0, h1⟩ := hi
    rw [convertToIndex_eq]
    unfold squareName toupper
    rw [rowOf_eq h0, colOf_eq h0]
    simp only
    rw [if_neg (by omega), if_neg (by omega)]
    omega
  · intro c r h1 h2
    obtain ⟨t1, t2⟩ := toupper_lower h1 h2
    rw [convertToIndex_eq, convertToIndex_eq, t1, t2]

/-- C16, counterexample: with both masks empty `white_pieces` is 0, yet the win
check reports that White wins, not Black. -/
theorem C16_counterexample :
    winCheck 0 0 = Status.whiteWins ∧ winCheck 0 0 ≠ Status.blackWins := by
  decide

/-- C16, amended: the win check reports that White wins whenever
`black_pieces` is 0, that Black wins whenever `white_pieces` is 0 and
`black_pieces` is not, and the game in progress when both are non-zero. -/
theorem C16_win_detection (black_pieces white_pieces : Nat) :
    (black_pieces = 0 → winCheck black_pieces white_pieces = Status.whiteWins) ∧
    (white_pieces = 0 → black_pieces ≠ 0 →
      winCheck black_pieces white_pieces = Status.blackWins) ∧
    (black_pieces ≠ 0 → white_pieces ≠ 0 →
      winCheck black_pieces white_pieces = Status.inProgress) := by
  unfold winCheck
  refine ⟨fun h => ?_, fun h1 h2 => ?_, fun h1 h2 => ?_⟩
  · rw [if_pos h]
  · rw [if_neg h2, if_pos h1]
  · rw [if_neg h1, if_neg h2]

/-- C16 amended, at concrete masks: White has no piece left, Black has one. -/
theorem C16_win_detection_witness : winCheck (2 ^ 27) 0 = Status.blackWins :=
  (C16_win_detection (2 ^ 27) 0).2.1 rfl (by decide)

/-- C17: if every square set in `black_pieces`, `white_pieces` or `kings` has
row + column odd, the same holds after the apply steps of any move that
`IsLegalMove` accepts; hence it holds in every board reachable from
`InitializeBoard`. -/
theorem C17_only_dark_squares :
    (∀ (b : Board) (player s e c r c' : Int), b.OnDark →
      IsLegalMove (b.playerPieces player) (b.opponentPieces player) b.kings s e player c
        = some (r, c') →
      (r = 1 ∨ r = 2) →
      ∃ b', applyMove b player s e c' = some b' ∧ b'.OnDark) ∧
    (∀ b : Board, Reachable b → b.OnDark) := by
  have hstep : ∀ (b : Board) (player s e c r c' : Int), b.OnDark →
      IsLegalMove (b.playerPieces player) (b.opponentPieces player) b.kings s e player c
        = some (r, c') →
      r ≠ 0 → ∃ b', applyMove b player s e c' = some b' ∧ b'.OnDark := by
    intro b player s e c r c' hd hl hr0
    obtain ⟨hs, he, h1, -, -, -⟩ := accepted_facts _ _ _ _ _ _ _ _ _ hl hr0
    obtain ⟨b', hb', hown, hopp, hkb⟩ :=
      applyMove_bits b player s e c' hs he (accepted_mid _ _ _ _ _ _ _ _ _ hl hr0)
    have hdp : ∀ i : Nat, ((b.playerPieces player).testBit i = true ∨
        (b.opponentPieces player).testBit i = true ∨ b.kings.testBit i = true) →
        darkSquare i := by
      intro i hi
      apply hd i
      unfold Board.playerPieces Board.opponentPieces at hi
      split_ifs at hi <;> tauto
    have hds : darkSquare s.toNat := hdp _ (Or.inl h1)
    have hgeo : (abs (rowOf e - rowOf s) = 1 ∧ abs (colOf e - colOf s) = 1) ∨
        (abs (rowOf e - rowOf s) = 2 ∧ abs (colOf e - colOf s) = 2) := by
      obtain ⟨r0, c0, h0, hr⟩ := isLegalMove_result (b.playerPieces player)
        (b.opponentPieces player) b.kings s e player c
      rw [hl] at h0
      simp only [Option.some.injEq, Prod.mk.injEq] at h0
      obtain ⟨rfl, rfl⟩ := h0
      rcases hr with h | h | h
      · exact absurd h hr0
      · subst h
        obtain ⟨⟨-, -, -, -, -, a6, a7, -⟩, -⟩ := (isLegalMove_one_iff _ _ _ _ _ _ _ _).mp hl
        exact Or.inl ⟨a6, a7⟩
      · subst h
        obtain ⟨⟨-, -, -, -, -, a6, a7, -⟩, -⟩ := (isLegalMove_two_iff _ _ _ _ _ _ _ _).mp hl
        exact Or.inr ⟨a6, a7⟩
    have hde : darkSquare e.toNat := dark_of_diagonal hs he hds hgeo
    refine ⟨b', hb', ?_⟩
    have hdp' : ∀ i : Nat, ((b'.playerPieces player).testBit i = true ∨
        (b'.opponentPieces player).testBit i = true ∨ b'.kings.testBit i = true) →
        darkSquare i := by
      intro i hi
      by_cases hie : i = e.toNat
      · rw [hie]; exact hde
      · apply hdp i
        rw [hown, hopp, hkb] at hi
        simp only [hie, decide_False, Bool.or_false, Bool.and_false] at hi
        rcases hi with hi | hi | hi
        · left
          simp only [Bool.and_eq_true] at hi
          exact hi.1.1
        · right; left
          simp only [Bool.and_eq_true] at hi
          exact hi.1
        · right; right
          split_ifs at hi
          · simp only [Bool.and_eq_true] at hi
            exact hi.1.1.1
          · simp only [Bool.and_eq_true] at hi
            exact hi.1
    intro i hi
    apply hdp' i
    unfold Board.playerPieces Board.opponentPieces
    split_ifs <;> tauto
  refine ⟨fun b player s e c r c' hd hl hr => hstep b player s e c r c' hd hl (by omega), ?_⟩
  intro b hb
  induction hb with
  | init b hb =>
    rw [initializeBoard_eq] at hb
    simp only [Option.some.injEq] at hb
    subst hb
    intro i hi
    have hk : (0 : Nat).testBit i = false := Nat.zero_testBit i
    simp only [hk, Bool.false_eq_true, or_false] at hi
    rcases hi with hi | hi
    · exact bits_of_u64 _ _ (by decide) (by decide) i hi
    · exact bits_of_u64 _ _ (by decide) (by decide) i hi
  | move b b' player s e c r c' _ _ hl hr ha ih =>
    obtain ⟨b'', hb'', hd⟩ := hstep b player s e c r c' ih hl hr
    rw [ha] at hb''
    simp only [Option.some.injEq] at hb''
    subst hb''
    exact hd

/-- C17 on the initial board: Black plays 17 to 26. -/
theorem C17_only_dark_squares_witness :
    ∃ b', applyMove ⟨0xAA55AA, 0x55AA550000000000, 0⟩ 1 17 26 0 = some b' ∧ b'.OnDark := by
  have hd : (⟨0xAA55AA, 0x55AA550000000000, 0⟩ : Board).OnDark := by
    intro i hi
    have hk : (0 : Nat).testBit i = false := Nat.zero_testBit i
    simp only [hk, Bool.false_eq_true, or_false] at hi
    rcases hi with hi | hi
    · exact bits_of_u64 _ _ (by decide) (by decide) i hi
    · exact bits_of_u64 _ _ (by decide) (by decide) i hi
  exact C17_only_dark_squares.1 ⟨0xAA55AA, 0x55AA550000000000, 0⟩ 1 17 26 0 1 0 hd (by decide)
    (by decide)

/-- C18: on a board that satisfies the invariants, after the apply steps of an
accepted move the end square is set in `kings` exactly when the start square was
set in `kings` before or `CheckPromotion end player` holds, and every square of
the board other than start, end and (for a capture) the midpoint has the same
king flag as before. -/
theorem C18_no_spurious_crowning (b : Board) (player s e c r c' : Int) (hi : b.Inv)
    (hl : IsLegalMove (b.playerPieces player) (b.opponentPieces player) b.kings s e player c
      = some (r, c'))
    (hr : r = 1 ∨ r = 2) :
    ∃ b', applyMove b player s e c' = some b' ∧
      (isSet b'.kings e ↔ (isSet b.kings s ∨ CheckPromotion e player = true)) ∧
      (∀ i : Int, onBoard i → i ≠ s → i ≠ e → (r = 2 → i ≠ midSquare s e) →
        (isSet b'.kings i ↔ isSet b.kings i)) := by
  have hr0 : r ≠ 0 := by omega
  obtain ⟨hs, he, h1, h2, h3, h4⟩ := accepted_facts _ _ _ _ _ _ _ _ _ hl hr0
  obtain ⟨b', hb', -, -, hkb⟩ :=
    applyMove_bits b player s e c' hs he (accepted_mid _ _ _ _ _ _ _ _ _ hl hr0)
  obtain ⟨-, d2⟩ := (inv_bits b player).mp hi
  unfold isSet at h1 h2 h3
  have hke : b.kings.testBit e.toNat = false := by
    cases hk : b.kings.testBit e.toNat
    · rfl
    · rcases d2 _ hk with h | h
      · exact absurd h h2
      · exact absurd h h3
  have he64 : e.toNat < 64 := by unfold onBoard at he; omega
  have hmid : c' = 0 ∨ (midSquare s e).toNat ≠ e.toNat := by
    rcases h4 with ⟨-, h0⟩ | ⟨-, -, -, ho⟩
    · exact Or.inl h0
    · right
      intro heq
      unfold isSet at ho
      rw [heq] at ho
      exact h3 ho
  refine ⟨b', hb', ?_, ?_⟩
  · unfold isSet
    rw [hkb]
    by_cases hks : b.kings.testBit s.toNat = true
    · rw [if_pos hks]
      rcases hmid with h0 | hne
      · simp [h0, hks]
      · simp [he64, Ne.symm hne, hks]
    · rw [if_neg hks, hke]
      simp [hks]
  · intro i hib hns hne hnm
    unfold isSet
    rw [hkb]
    unfold onBoard at hib hs he
    have hi64 : i.toNat < 64 := by omega
    have h1' : i.toNat ≠ s.toNat := by omega
    have h2' : i.toNat ≠ e.toNat := by omega
    have h3' : c' = 0 ∨ i.toNat ≠ (midSquare s e).toNat := by
      rcases h4 with ⟨-, h0⟩ | ⟨hr2, -, hm, -⟩
      · exact Or.inl h0
      · right
        have := hnm hr2
        unfold onBoard at hm
        omega
    by_cases hks : b.kings.testBit s.toNat = true
    · rw [if_pos hks]
      rcases h3' with h0 | hne'
      · simp [h0, hi64, h1', h2']
      · simp [hi64, h1', h2', hne']
    · rw [if_neg hks]
      rcases h3' with h0 | hne'
      · simp [h0, h2']
      · simp [hi64, h2', hne']

/-- C18 at a concrete position: a Black man on 27 jumps over a White king on 36
to 45 while a White king stands on 54; the man is not crowned and the king on
54 keeps its flag. -/
theorem C18_no_spurious_crowning_witness :
    ∃ b', applyMove ⟨2 ^ 27, 2 ^ 36 + 2 ^ 54, 2 ^ 36 + 2 ^ 54⟩ 1 27 45 1 = some b' ∧
      (isSet b'.kings 45 ↔
        (isSet (2 ^ 36 + 2 ^ 54) 27 ∨ CheckPromotion 45 1 = true)) ∧
      (isSet b'.kings 54 ↔ isSet (2 ^ 36 + 2 ^ 54) 54) := by
  obtain ⟨b', hb', h1, h2⟩ :=
    C18_no_spurious_crowning ⟨2 ^ 27, 2 ^ 36 + 2 ^ 54, 2 ^ 36 + 2 ^ 54⟩ 1 27 45 0 2 1
      (by decide) (by decide) (by decide)
  exact ⟨b', hb', h1, h2 54 (by decide) (by decide) (by decide) (fun _ => by decide)⟩

/-- C19: whatever the capture flag holds on entry, it is 0 on return when
`IsLegalMove` returns 1 and 1 when it returns 2; so after a non-zero result the
flag is non-zero exactly for result 2, and the apply steps then clear the
midpoint in the opponent's mask, while for result 1 they leave every square of
the opponent's mask as it was. -/
theorem C19_capture_flag (b : Board) (player s e c r c' : Int) :
    IsLegalMove (b.playerPieces player) (b.opponentPieces player) b.kings s e player c
        = some (r, c') →
      (r = 1 → c' = 0) ∧ (r = 2 → c' = 1) ∧
      (r ≠ 0 → ((c' ≠ 0 ↔ r = 2) ∧
        ∃ b', applyMove b player s e c' = some b' ∧
          (r = 1 → ∀ i : Int, onBoard i →
            (isSet (b'.opponentPieces player) i ↔ isSet (b.opponentPieces player) i)) ∧
          (r = 2 → isSet (b.opponentPieces player) (midSquare s e) ∧
            ¬ isSet (b'.opponentPieces player) (midSquare s e)))) := by
  intro hl
  refine ⟨?_, ?_, ?_⟩
  · rintro rfl
    exact ((isLegalMove_one_iff _ _ _ _ _ _ _ _).mp hl).2
  · rintro rfl
    exact ((isLegalMove_two_iff _ _ _ _ _ _ _ _).mp hl).2
  · intro hr0
    obtain ⟨hs, he, -, -, -, h4⟩ := accepted_facts _ _ _ _ _ _ _ _ _ hl hr0
    obtain ⟨b', hb', -, hopp, -⟩ :=
      applyMove_bits b player s e c' hs he (accepted_mid _ _ _ _ _ _ _ _ _ hl hr0)
    refine ⟨?_, b', hb', ?_, ?_⟩
    · rcases h4 with ⟨h1, h0⟩ | ⟨h2, h1, -, -⟩ <;> omega
    · intro hr1 i _
      have h0 : c' = 0 := by rcases h4 with ⟨-, h0⟩ | ⟨h2, -⟩ <;> omega
      unfold isSet
      rw [hopp, h0]
      simp
    · intro hr2
      rcases h4 with ⟨h1, -⟩ | ⟨-, h1, -, ho⟩
      · omega
      · refine ⟨ho, ?_⟩
        unfold isSet
        rw [hopp, h1]
        simp

/-- C19 at a concrete position, entered with the flag at 7: a Black man on 27
jumps over a White piece on 36 to 45, and the apply steps remove that piece. -/
theorem C19_capture_flag_witness :
    ∃ b', applyMove ⟨2 ^ 27, 2 ^ 36, 0⟩ 1 27 45 1 = some b' ∧
      ¬ isSet (b'.opponentPieces 1) (midSquare 27 45) := by
  obtain ⟨-, -, h⟩ := C19_capture_flag ⟨2 ^ 27, 2 ^ 36, 0⟩ 1 27 45 7 2 1 (by decide)
  obtain ⟨-, b', hb', -, h2⟩ := h (by decide)
  exact ⟨b', hb', (h2 rfl).2⟩

/-- C20: for start and end on the board that reach the capture branch of
`IsLegalMove` (equal row and column distance 2), `mid_index` lies in 0..63 and is
one row and one column away from both start and end; for a position on the
board and each of the four directions that passes the bounds check on the
landing row and column, the `mid_index` and `end_index` of
`HasAvailableCapture` lie in 0..63.  So neither function evaluates an undefined
shift on such inputs. -/
theorem C20_indices_on_board :
    (∀ s e : Int, onBoard s → onBoard e →
      abs (rowOf e - rowOf s) = abs (colOf e - colOf s) → abs (rowOf e - rowOf s) = 2 →
      onBoard (midSquare s e) ∧
      abs (rowOf (midSquare s e) - rowOf s) = 1 ∧ abs (colOf (midSquare s e) - colOf s) = 1 ∧
      abs (rowOf e - rowOf (midSquare s e)) = 1 ∧
      abs (colOf e - colOf (midSquare s e)) = 1) ∧
    (∀ position dr dc : Int, onBoard position → (dr, dc) ∈ directions →
      ¬ (position.tdiv 8 + dr + dr < 0 ∨ position.tdiv 8 + dr + dr ≥ 8 ∨
        position.tmod 8 + dc + dc < 0 ∨ position.tmod 8 + dc + dc ≥ 8) →
      onBoard ((position.tdiv 8 + dr) * 8 + (position.tmod 8 + dc)) ∧
      onBoard ((position.tdiv 8 + dr + dr) * 8 + (position.tmod 8 + dc + dc))) ∧
    (∀ (pp op k : Nat) (position player : Int), onBoard position →
      HasAvailableCapture pp op k position player = some 0 ∨
        HasAvailableCapture pp op k position player = some 1) ∧
    (∀ (pp op k : Nat) (s e player c : Int),
      ∃ r c', IsLegalMove pp op k s e player c = some (r, c')) := by
  refine ⟨?_, ?_, ?_, ?_⟩
  · intro s e hs he hd hr
    have hc : abs (colOf e - colOf s) = 2 := by rw [← hd]; exact hr
    obtain ⟨m1, -, -, m4, m5⟩ := midSquare_facts hs he hr hc
    refine ⟨m1, ?_, ?_, ?_, ?_⟩ <;> unfold abs at hr hc ⊢ <;>
      split_ifs at hr hc ⊢ <;> omega
  · intro position dr dc hp hd hb
    obtain ⟨hp0, hp1⟩ := hp
    have hr : position.tdiv 8 = position / 8 := rowOf_eq hp0
    have hc : position.tmod 8 = position % 8 := colOf_eq hp0
    rw [hr, hc] at hb ⊢
    unfold directions at hd
    simp only [List.mem_cons, Prod.mk.injEq, List.mem_singleton, List.not_mem_nil, or_false]
      at hd
    unfold onBoard
    omega
  · intro pp op k position player hp
    rw [hasAvailableCapture_eq pp op k position player hp]
    split_ifs
    · exact Or.inr rfl
    · exact Or.inl rfl
  · intro pp op k s e player c
    obtain ⟨r, c', h, -⟩ := isLegalMove_result pp op k s e player c
    exact ⟨r, c', h⟩

/-- C20 at concrete squares: the jump 27 to 45 has its midpoint on the board,
and so are the two indices of the direction (1, 1) from 27. -/
theorem C20_indices_on_board_witness :
    onBoard (midSquare 27 45) ∧
      onBoard (((27 : Int).tdiv 8 + 1) * 8 + ((27 : Int).tmod 8 + 1)) ∧
      onBoard (((27 : Int).tdiv 8 + 1 + 1) * 8 + ((27 : Int).tmod 8 + 1 + 1)) :=
  ⟨(C20_indices_on_board.1 27 45 (by decide) (by decide) (by decide) (by decide)).1,
    C20_indices_on_board.2.1 27 1 1 (by decide) (by decide) (by decide)⟩

end Bitboard
